import Mathlib

/-!
Shallow embedding of the baikal core orchestration engine
(src/baikal/core/model.py): graph assembly, required-step resolution,
caller-data normalization and the execution loops of fit and predict.

Steps and data slots are identified by natural numbers.  A `World`
packs the slot-ownership map (`Data.step`), slot names (`Data.name`),
the step table and each step's predict / transform operations.  Data
payload values have type `Option V`, where `none` models the Python
`None` payload; a cache maps a slot to `Option (Option V)`, the outer
layer recording presence of the key.

The generic directed-graph container (`baikal/core/digraph.py`) and
the `listify` helper (`baikal/core/utils.py`) are not part of the
sources; they are modelled from the spec where indicated.
-/

namespace Baikal

/-- A step as declared to the orchestrator: its name, ordered input and
output slots, and capability flags (train / predict / transform). -/
structure StepDef where
  name : String
  inputs : List Nat
  outputs : List Nat
  hasFit : Bool
  hasPredict : Bool
  hasTransform : Bool
deriving DecidableEq

/-- The ambient universe of steps and slots: `stepOf` is the producing
step of each slot (`Data.step`), `slotName` the slot's name
(`Data.name`), `steps` the step table, and `predictFn` / `transformFn`
the predict / transform operations of each step. -/
structure World (V : Type) where
  stepOf : Nat → Nat
  slotName : Nat → String
  steps : Nat → StepDef
  predictFn : Nat → List (Option V) → List (Option V)
  transformFn : Nat → List (Option V) → List (Option V)

/-- The error taxonomy of the engine, one constructor per fatal error
class of the source (`RuntimeError` for duplicated names, the cyclic
graph failure of the topological sort, the missing-inputs
`ValueError`, the unknown-name `ValueError` of `_get_data`, the count
mismatch `ValueError` of `_normalize_list`, the `KeyError` of a cache
lookup, and the `TypeError` of `_compute_step`). -/
inductive PipeError where
  | duplicateStepName (names : List String)
  | cyclicGraph
  | missingInput (slots : List Nat)
  | unknownDataName (name : String)
  | arityMismatch (expected got : Nat)
  | missingCacheKey (slot : Nat)
  | uncomputableStep (step : Nat)
deriving DecidableEq

deriving instance DecidableEq for Except

/-- Modelled from the spec: the `DiGraph` collaborator
(baikal/core/digraph.py, not in the sources) is a generic node/edge
container with stable (insertion-order) node iteration. -/
structure DiGraph where
  nodes : List Nat
  edges : List (Nat × Nat)
deriving DecidableEq

/-- Modelled from the spec: node insertion, idempotent per node
identity. -/
def DiGraph.addNode (g : DiGraph) (s : Nat) : DiGraph :=
  if s ∈ g.nodes then g else ⟨g.nodes ++ [s], g.edges⟩

/-- Modelled from the spec: edge insertion, idempotent per edge. -/
def DiGraph.addEdge (g : DiGraph) (a b : Nat) : DiGraph :=
  if (a, b) ∈ g.edges then g else ⟨g.nodes, g.edges ++ [(a, b)]⟩

/-- Modelled from the spec: in-degree query of a node (number of edges
into it). -/
def DiGraph.inDegree (g : DiGraph) (s : Nat) : Nat :=
  (g.edges.filter (fun e => decide (e.2 = s))).length

/-- Set union in list form: membership is disjunction, the left
operand's order is preserved (Python set semantics up to enumeration
order). -/
def lunion (a b : List Nat) : List Nat :=
  a ++ b.filter (fun x => decide (x ∉ a))

/-- In-degree of a node counting only edges whose source lies in the
subgraph `A` (used to phrase the missing-input criterion of the claims
over the required subgraph). -/
def subInDegree (g : DiGraph) (A : List Nat) (s : Nat) : Nat :=
  ((g.edges.filter (fun e => decide (e.2 = s))).filter
    (fun e => decide (e.1 ∈ A))).length

/-- In-degree of `v` counting only edges from nodes still in `rem`
(helper of the topological sort). -/
def inDegreeAmong (edges : List (Nat × Nat)) (rem : List Nat) (v : Nat) : Nat :=
  (edges.filter (fun e => decide (e.1 ∈ rem) && decide (e.2 = v))).length

/-- Modelled from the spec: Kahn-style topological ordering with a fuel
bound, repeatedly extracting the first remaining node with no incoming
edge from the remaining nodes, failing with `cyclicGraph` if none
exists while nodes remain. -/
def topoAux (edges : List (Nat × Nat)) : Nat → List Nat → Except PipeError (List Nat)
  | _, [] => .ok []
  | 0, _ :: _ => .error .cyclicGraph
  | fuel+1, r :: rs =>
    match (r :: rs).find? (fun v => inDegreeAmong edges (r :: rs) v == 0) with
    | none => .error .cyclicGraph
    | some v =>
      match topoAux edges fuel ((r :: rs).erase v) with
      | .error e => .error e
      | .ok rest => .ok (v :: rest)

/-- Modelled from the spec: `DiGraph.topological_sort`, failing with a
cycle-detected error if no topological order exists. -/
def topologicalSort (g : DiGraph) : Except PipeError (List Nat) :=
  topoAux g.edges g.nodes.length g.nodes

/-- Nodes of `g` reachable in one edge-step from the node set `S`. -/
def stepSet (g : DiGraph) (S : List Nat) : List Nat :=
  g.nodes.filter (fun b => S.any (fun a => decide (a ∈ g.nodes) && decide ((a, b) ∈ g.edges)))

/-- Nodes reachable from `S` in at most `n` further edge-steps. -/
def reachIter (g : DiGraph) : Nat → List Nat → List Nat
  | 0, S => S
  | n+1, S => reachIter g n (S ++ stepSet g S)

/-- `g` contains a directed cycle through its nodes: some node reaches
itself by a nonempty edge path. -/
def hasCycle (g : DiGraph) : Bool :=
  g.nodes.any (fun v => decide (v ∈ reachIter g g.nodes.length (stepSet g [v])))

/-- The edge relation of `g` restricted to its nodes. -/
def cycEdge (g : DiGraph) (a b : Nat) : Prop :=
  (a, b) ∈ g.edges ∧ a ∈ g.nodes ∧ b ∈ g.nodes

/-- `collect_steps_from` of `Model._build_graph`: visit the producing
step of the slot, add it as a node, and recurse into that step's input
slots (no visited check, exactly as the source).  `fuel` bounds the
recursion depth. -/
def collectFrom (W : World V) : Nat → Nat → DiGraph → DiGraph
  | 0, _, g => g
  | fuel+1, out, g =>
    (W.steps (W.stepOf out)).inputs.foldl
      (fun g2 inp => collectFrom W fuel inp g2)
      (g.addNode (W.stepOf out))

/-- The edge-adding pass of `Model._build_graph`: for every node and
every one of its input slots, add an edge from the slot's producing
step to the consuming step. -/
def addAllEdges (W : World V) (g : DiGraph) : DiGraph :=
  g.nodes.foldl
    (fun g1 s => (W.steps s).inputs.foldl (fun g2 inp => g2.addEdge (W.stepOf inp) s) g1) g

/-- First-seen-order list of the distinct elements of `names` (the key
order of the `seen_names` dict of `_build_graph`). -/
def seenOrder (names : List String) : List String :=
  names.foldl (fun acc n => if n ∈ acc then acc else acc ++ [n]) []

/-- The duplicated step names of `_build_graph`: names reported by more
than one node, in first-seen order. -/
def duplicatedNames (W : World V) (g : DiGraph) : List String :=
  (seenOrder (g.nodes.map (fun s => (W.steps s).name))).filter
    (fun n => decide (1 < (g.nodes.map (fun s => (W.steps s).name)).count n))

/-- The node-collection pass of `_build_graph`: the collection walk
run from each declared output in order, starting from the empty
graph. -/
def collectGraph (W : World V) (outs : List Nat) (fuel : Nat) : DiGraph :=
  outs.foldl (fun g1 out => collectFrom W fuel out g1) ⟨[], []⟩

/-- `Model._build_graph`: collect nodes from the declared outputs, add
the producer-to-consumer edges, then fail if any step name is
duplicated. -/
def buildGraph (W : World V) (outs : List Nat) (fuel : Nat) : Except PipeError DiGraph :=
  let g := addAllEdges W (collectGraph W outs fuel)
  let dups := duplicatedNames W g
  if dups = [] then .ok g else .error (.duplicateStepName dups)

/-- The depth-first `backtrack` of `Model._get_required_steps`.  For a
slot: if it is among the available input keys `K` it is recorded as
found and descent stops; otherwise, unless its producing step is
already in `allReq` (the accumulated set of the previous top-level
outputs), the producer is taken as required and each of its input
slots is traversed in order, unioning the newly required steps and
appending the found inputs.  `fuel` bounds the recursion depth. -/
def backtrackSlot (W : World V) (K : List Nat) (allReq : List Nat) :
    Nat → Nat → List Nat × List Nat
  | 0, _ => ([], [])
  | fuel+1, slot =>
    if slot ∈ K then ([], [slot])
    else
      let p := W.stepOf slot
      if p ∈ allReq then ([], [])
      else
        (W.steps p).inputs.foldl
          (fun acc inp =>
            let r := backtrackSlot W K allReq fuel inp
            (lunion acc.1 r.1, acc.2 ++ r.2))
          ([p], [])

/-- The top-level loop of `_get_required_steps` over the desired
outputs, accumulating `all_required_steps` and `inputs_found`. -/
def resolveAll (W : World V) (K : List Nat) (outs : List Nat) (fuel : Nat) :
    List Nat × List Nat :=
  outs.foldl
    (fun acc out =>
      let r := backtrackSlot W K acc.1 fuel out
      (lunion acc.1 r.1, acc.2 ++ r.2)) ([], [])

/-- `Model._get_required_steps`: request a topological order (failing
early on a cyclic graph), backtrack from the desired outputs, warn on
unused inputs (first component), fail if any required step of full-graph
in-degree zero exists (collecting all outputs of all such steps), and
otherwise return the required steps filtered out of the topological
order. -/
def getRequiredSteps (W : World V) (g : DiGraph) (K : List Nat) (outs : List Nat)
    (fuel : Nat) : List Nat × Except PipeError (List Nat) :=
  match topologicalSort g with
  | .error _ => ([], .error .cyclicGraph)
  | .ok sorted =>
    let r := resolveAll W K outs fuel
    let unused := K.filter (fun k => decide (¬ k ∈ r.2))
    let missingSteps := r.1.filter (fun s => decide (g.inDegree s = 0))
    let missing : List Nat := missingSteps.flatMap (fun s => (W.steps s).outputs)
    if missing = [] then (unused, .ok (sorted.filter (fun s => decide (s ∈ r.1))))
    else (unused, .error (.missingInput missing))

/-- Positional caller data: a single array-like value or an ordered
sequence of them (`listify` of utils.py, modelled from the spec, wraps
the former into a one-element list). -/
inductive PosGiven (V : Type) where
  | single (v : Option V)
  | many (vs : List (Option V))
deriving DecidableEq

/-- Caller-supplied data: keyed by slot or by name, or positional. -/
inductive GivenData (V : Type) where
  | dict (entries : List ((Nat ⊕ String) × Option V))
  | pos (p : PosGiven V)
deriving DecidableEq

/-- Modelled from the spec: `listify` wraps a single value into a list
and keeps a sequence as is. -/
def listifyPos : PosGiven V → List (Option V)
  | .single v => [v]
  | .many vs => vs

/-- The two normalization roles of `_normalize_given_data`. -/
inductive DataKind where
  | input
  | target
deriving DecidableEq

/-- `Model._get_data`: scan all output slots of all steps of the graph
for an exact name match, failing with the unknown-name error. -/
def getData (W : World V) (g : DiGraph) (name : String) : Except PipeError Nat :=
  match (g.nodes.flatMap (fun s => (W.steps s).outputs)).find?
      (fun o => W.slotName o == name) with
  | some o => .ok o
  | none => .error (.unknownDataName name)

/-- `Model._normalize_dict`: resolve each key to a slot, directly or by
name lookup. -/
def normalizeDict (W : World V) (g : DiGraph) :
    List ((Nat ⊕ String) × Option V) → Except PipeError (List (Nat × Option V))
  | [] => .ok []
  | (k, v) :: rest =>
    match k with
    | .inl slot =>
      match normalizeDict W g rest with
      | .error e => .error e
      | .ok r => .ok ((slot, v) :: r)
    | .inr name =>
      match getData W g name with
      | .error e => .error e
      | .ok slot =>
        match normalizeDict W g rest with
        | .error e => .error e
        | .ok r => .ok ((slot, v) :: r)

/-- The test `len(data_list) == 1 and data_list[0] is None` of
`_normalize_list`. -/
def isSingleNone : List (Option V) → Bool
  | [none] => true
  | _ => false

/-- `Model._normalize_list`: expand a single `none` placeholder when
`expandNone` is set, then zip against the declared slots, failing on a
count mismatch. -/
def normalizeList (dataList : List (Option V)) (dataobjs : List Nat)
    (expandNone : Bool) : Except PipeError (List (Nat × Option V)) :=
  let dl :=
    if isSingleNone dataList && expandNone then List.replicate dataobjs.length none
    else dataList
  if dl.length ≠ dataobjs.length then
    .error (.arityMismatch dataobjs.length dl.length)
  else .ok (dataobjs.zip dl)

/-- `Model._normalize_given_data`: dispatch on keyed versus positional
data; positional data is zipped against the declared inputs for the
input role and the declared outputs for the target role, with `none`
expansion only for targets. -/
def normalizeGivenData (W : World V) (g : DiGraph) (mIn mOut : List Nat)
    (given : GivenData V) (kind : DataKind) : Except PipeError (List (Nat × Option V)) :=
  match given with
  | .dict entries => normalizeDict W g entries
  | .pos p =>
    let dataobjs := if kind = .input then mIn else mOut
    normalizeList (listifyPos p) dataobjs (kind = .target)

/-- The execution cache of one call: slot to present payload. -/
abbrev Cache (V : Type) := Nat → Option (Option V)

/-- Python-dict lookup over an association list (later bindings win). -/
def dlookup (l : List (Nat × α)) (k : Nat) : Option α :=
  l.foldl (fun acc p => if p.1 = k then some p.2 else acc) none

/-- Write the given slot/value pairs into the cache in order
(`cache.update`). -/
def updateCache (cache : Cache V) (pairs : List (Nat × Option V)) : Cache V :=
  pairs.foldl (fun c p => fun k => if k = p.1 then some p.2 else c k) cache

/-- The initial cache of a call, from the normalized input data. -/
def cacheOfList (l : List (Nat × Option V)) : Cache V :=
  updateCache (fun _ => none) l

/-- Gather the values of the given slots from the cache, failing with
the key error of the first absent slot (`cache[i]`). -/
def gatherVals (cache : Cache V) : List Nat → Except PipeError (List (Option V))
  | [] => .ok []
  | k :: ks =>
    match cache k with
    | none => .error (.missingCacheKey k)
    | some v =>
      match gatherVals cache ks with
      | .error e => .error e
      | .ok vs => .ok (v :: vs)

/-- The target values passed to a step's fit: the values of exactly
those of its output slots that are present and not `None` in the
target data (`fit` of model.py). -/
def gatherTargets (T : List (Nat × Option V)) (outs : List Nat) : List (Option V) :=
  outs.filterMap (fun o =>
    match dlookup T o with
    | some w => if w.isSome then some w else none
    | none => none)

/-- `Model._compute_step`: predict takes priority over transform; a
step exposing neither is uncomputable. -/
def computeStep (W : World V) (s : Nat) (xs : List (Option V)) :
    Except PipeError (List (Option V)) :=
  if (W.steps s).hasPredict then .ok (W.predictFn s xs)
  else if (W.steps s).hasTransform then .ok (W.transformFn s xs)
  else .error (.uncomputableStep s)

/-- One observable invocation of a step operation during execution. -/
inductive TraceEntry (V : Type) where
  | fitCall (s : Nat) (xs ys : List (Option V))
  | computeCall (s : Nat) (xs : List (Option V))
deriving DecidableEq

/-- The fit phase of one loop iteration, recorded on the trace: when a
target cache is supplied and the step has the train capability, its
training operation is invoked with the gathered inputs followed by the
gathered targets. -/
def fitTraceEntry (W : World V) (targets : Option (List (Nat × Option V))) (s : Nat)
    (xs : List (Option V)) (tr : List (TraceEntry V)) : List (TraceEntry V) :=
  match targets with
  | some T =>
    if (W.steps s).hasFit then tr ++ [.fitCall s xs (gatherTargets T (W.steps s).outputs)]
    else tr
  | none => tr

/-- The shared execution loop of `fit` and `predict`: for each step in
order, gather its input values from the cache, invoke its training
operation when a target cache is supplied and the step is trainable,
invoke its predict/transform operation, and write its outputs back
into the cache in declaration order (`zip` truncating as in the
source). -/
def execLoop (W : World V) (targets : Option (List (Nat × Option V))) :
    List Nat → Cache V → List (TraceEntry V) → List (TraceEntry V) × Except PipeError (Cache V)
  | [], cache, tr => (tr, .ok cache)
  | s :: rest, cache, tr =>
    match gatherVals cache (W.steps s).inputs with
    | .error e => (tr, .error e)
    | .ok xs =>
      match computeStep W s xs with
      | .error e => (fitTraceEntry W targets s xs tr, .error e)
      | .ok outVals =>
        execLoop W targets rest (updateCache cache ((W.steps s).outputs.zip outVals))
          (fitTraceEntry W targets s xs tr ++ [.computeCall s xs])

/-- The post-resolution phase of `Model.fit`: given the normalized
input and target data and the resolver's answer, run the execution
loop with training over the resolved step list. -/
def fitRun (W : World V) (inputNorm targetNorm : List (Nat × Option V))
    (r : List Nat × Except PipeError (List Nat)) :
    List Nat × List (TraceEntry V) × Except PipeError Unit :=
  match r.2 with
  | .error e => (r.1, [], .error e)
  | .ok steps =>
    let er := execLoop W (some targetNorm) steps (cacheOfList inputNorm) []
    match er.2 with
    | .error e => (r.1, er.1, .error e)
    | .ok _ => (r.1, er.1, .ok ())

/-- `Model.fit`: normalize the input and target data, resolve the
required steps from the supplied input keys toward the target keys,
then run the execution loop with training.  Returns the unused-input
warnings, the invocation trace, and the outcome.  An omitted target is
passed as `.pos (.single none)`, the `target_data=None` default. -/
def fitModel (W : World V) (g : DiGraph) (mIn mOut : List Nat)
    (inputGiven targetGiven : GivenData V) (fuel : Nat) :
    List Nat × List (TraceEntry V) × Except PipeError Unit :=
  match normalizeGivenData W g mIn mOut inputGiven .input with
  | .error e => ([], [], .error e)
  | .ok inputNorm =>
    match normalizeGivenData W g mIn mOut targetGiven .target with
    | .error e => ([], [], .error e)
    | .ok targetNorm =>
      fitRun W inputNorm targetNorm
        (getRequiredSteps W g (inputNorm.map Prod.fst) (targetNorm.map Prod.fst) fuel)

/-- `Model.predict`: normalize the input data, default the requested
outputs to the declared outputs, resolve the required steps, run the
execution loop without training, and read the requested outputs from
the cache.  Returns the unused-input warnings and the ordered output
values. -/
def predictModel (W : World V) (g : DiGraph) (mIn mOut : List Nat)
    (inputGiven : GivenData V) (outputsSel : Option (List Nat)) (fuel : Nat) :
    List Nat × Except PipeError (List (Option V)) :=
  match normalizeGivenData W g mIn mOut inputGiven .input with
  | .error e => ([], .error e)
  | .ok inputNorm =>
    let outs := match outputsSel with | none => mOut | some l => l
    let r := getRequiredSteps W g (inputNorm.map Prod.fst) outs fuel
    match r.2 with
    | .error e => (r.1, .error e)
    | .ok steps =>
      match (execLoop W none steps (cacheOfList inputNorm) []).2 with
      | .error e => (r.1, .error e)
      | .ok cache =>
        match gatherVals cache outs with
        | .error e => (r.1, .error e)
        | .ok outData => (r.1, .ok outData)

/-- A constructed model: the assembled graph and the full required-step
scaffold (`Model.__init__`). -/
structure ModelRec where
  graph : DiGraph
  steps : List Nat
  inputs : List Nat
  outputs : List Nat
deriving DecidableEq

/-- `Model.__init__`: build the graph from the declared outputs, then
compute the required steps from the declared inputs to the declared
outputs.  Both structural checks happen here, at construction. -/
def mkModel (W : World V) (mIn mOut : List Nat) (fuel : Nat) :
    Except PipeError ModelRec :=
  match buildGraph W mOut fuel with
  | .error e => .error e
  | .ok g =>
    match (getRequiredSteps W g mIn mOut fuel).2 with
    | .error e => .error e
    | .ok steps => .ok ⟨g, steps, mIn, mOut⟩

/-- Dict data whose keys are all given directly as slots. -/
def slotDict (l : List (Nat × Option V)) : GivenData V :=
  .dict (l.map (fun p => (Sum.inl p.1, p.2)))

/-- A rank function witnessing that the slot-producer relation is
acyclic: along every input edge the producing step's rank strictly
drops. -/
def RankOk (W : World V) (rank : Nat → Nat) : Prop :=
  ∀ s : Nat, ∀ inp ∈ (W.steps s).inputs, rank (W.stepOf inp) < rank s

/-- The graph is closed under dependencies: every node's input slots
have their producing step as a node, with the corresponding edge. -/
def GraphClosed (W : World V) (g : DiGraph) : Prop :=
  ∀ s ∈ g.nodes, ∀ inp ∈ (W.steps s).inputs,
    W.stepOf inp ∈ g.nodes ∧ (W.stepOf inp, s) ∈ g.edges

/-- Every edge of the graph arises from some input slot of its target
step. -/
def EdgesFromInputs (W : World V) (g : DiGraph) : Prop :=
  ∀ e ∈ g.edges, ∃ inp ∈ (W.steps e.2).inputs, W.stepOf inp = e.1

/-- The resolution invariant for one required step: each of its input
slots is an available input or has its producer required, and each of
its input slots that is available was recorded as found. -/
def StepOK (W : World V) (K : List Nat) (A : List Nat) (F : List Nat) (s : Nat) : Prop :=
  ∀ inp ∈ (W.steps s).inputs, (inp ∈ K ∨ W.stepOf inp ∈ A) ∧ (inp ∈ K → inp ∈ F)

/-- Step table of the diamond example: A emits slot 0, B maps slot 0
to slot 1, C maps slot 0 to slot 2, D maps slots 1 and 2 to slot 3. -/
def exSteps : Nat → StepDef
  | 0 => ⟨"A", [], [0], true, false, true⟩
  | 1 => ⟨"B", [0], [1], true, false, true⟩
  | 2 => ⟨"C", [0], [2], true, false, true⟩
  | 3 => ⟨"D", [1, 2], [3], true, true, false⟩
  | _+4 => ⟨"", [], [], false, false, false⟩

/-- The diamond example world over natural-number payloads; slot `n`
is produced by step `n`. -/
def exW : World Nat :=
  { stepOf := fun sl => sl
    slotName := fun sl => toString sl
    steps := exSteps
    predictFn := fun s _ => List.replicate (exSteps s).outputs.length (some (100 + s))
    transformFn := fun s _ => List.replicate (exSteps s).outputs.length (some (200 + s)) }

/-- The graph `_build_graph` assembles for the diamond example with
declared output slot 3. -/
def exG : DiGraph := ⟨[3, 1, 0, 2], [(1, 3), (2, 3), (0, 1), (0, 2)]⟩

/-- A two-step chain world: step 0 (named A, no inputs) emits slot 0
and step 1 (named B) maps slot 0 to slot 1. -/
def chainSteps : Nat → StepDef
  | 0 => ⟨"A", [], [0], true, false, true⟩
  | 1 => ⟨"B", [0], [1], true, false, true⟩
  | _+2 => ⟨"", [], [], false, false, false⟩

/-- The chain example world. -/
def chainW : World Nat :=
  { stepOf := fun sl => sl
    slotName := fun sl => toString sl
    steps := chainSteps
    predictFn := fun s _ => List.replicate (chainSteps s).outputs.length (some (100 + s))
    transformFn := fun s _ => List.replicate (chainSteps s).outputs.length (some (200 + s)) }

/-- The graph assembled for the chain example with declared output
slot 1. -/
def chainG : DiGraph := ⟨[1, 0], [(0, 1)]⟩

/-- A world identical to the chain but in which both steps report the
name A. -/
def dupW : World Nat :=
  { chainW with
    steps := fun s =>
      match s with
      | 0 => ⟨"A", [], [0], true, false, true⟩
      | 1 => ⟨"A", [0], [1], true, false, true⟩
      | _+2 => ⟨"", [], [], false, false, false⟩ }

/-- A concrete cyclic two-node graph. -/
def cycG : DiGraph := ⟨[0, 1], [(0, 1), (1, 0)]⟩

/-! ### Properties of the topological sort -/

lemma inDegreeAmong_eq_zero {edges : List (Nat × Nat)} {rem : List Nat} {v : Nat}
    (h : inDegreeAmong edges rem v = 0) : ∀ b ∈ rem, (b, v) ∉ edges := by
  intro b hb hmem
  unfold inDegreeAmong at h
  rw [List.length_eq_zero, List.filter_eq_nil_iff] at h
  exact h (b, v) hmem (by simp [hb])

lemma topoAux_ok_spec (edges : List (Nat × Nat)) :
    ∀ fuel rem l, topoAux edges fuel rem = .ok l →
      l.Perm rem ∧ List.Pairwise (fun a b => (b, a) ∉ edges) l ∧ ∀ v ∈ l, (v, v) ∉ edges := by
  intro fuel
  induction fuel with
  | zero =>
    intro rem l h
    cases rem with
    | nil =>
      simp only [topoAux] at h
      cases h
      exact ⟨List.Perm.refl _, by simp, by simp⟩
    | cons a as => simp [topoAux] at h
  | succ n ih =>
    intro rem l h
    cases rem with
    | nil =>
      simp only [topoAux] at h
      cases h
      exact ⟨List.Perm.refl _, by simp, by simp⟩
    | cons a as =>
      rw [topoAux] at h
      split at h
      · simp at h
      · rename_i v hf
        split at h
        · simp at h
        · rename_i rest hr
          have hl : l = v :: rest := by
            cases h
            rfl
          subst hl
          obtain ⟨hperm, hpw, hself⟩ := ih _ _ hr
          have hv : v ∈ a :: as := List.mem_of_find?_eq_some hf
          have hdeg : inDegreeAmong edges (a :: as) v = 0 := by
            have := List.find?_some hf
            simpa using this
          have hnone := inDegreeAmong_eq_zero hdeg
          refine ⟨?_, ?_, ?_⟩
          · exact (hperm.cons v).trans (List.perm_cons_erase hv).symm
          · refine List.pairwise_cons.mpr ⟨?_, hpw⟩
            intro b hb
            exact hnone b (List.mem_of_mem_erase (hperm.mem_iff.mp hb))
          · intro w hw
            rcases List.mem_cons.mp hw with hw | hw
            · subst hw; exact hnone w hv
            · exact hself w hw

lemma topologicalSort_ok_spec {g : DiGraph} {sorted : List Nat}
    (h : topologicalSort g = .ok sorted) :
    sorted.Perm g.nodes ∧ List.Pairwise (fun a b => (b, a) ∉ g.edges) sorted ∧
      ∀ v ∈ sorted, (v, v) ∉ g.edges :=
  topoAux_ok_spec g.edges _ _ _ h

lemma stepSet_mem {g : DiGraph} {S : List Nat} {b : Nat} :
    b ∈ stepSet g S ↔ b ∈ g.nodes ∧ ∃ a ∈ S, a ∈ g.nodes ∧ (a, b) ∈ g.edges := by
  unfold stepSet
  rw [List.mem_filter]
  simp [List.any_eq_true]

lemma reachIter_sound (g : DiGraph) :
    ∀ n S b, b ∈ reachIter g n S →
      b ∈ S ∨ ∃ a ∈ S, Relation.TransGen (cycEdge g) a b := by
  intro n
  induction n with
  | zero => intro S b h; exact Or.inl h
  | succ m ih =>
    intro S b h
    rw [reachIter] at h
    rcases ih _ _ h with hb | ⟨a, ha, htg⟩
    · rcases List.mem_append.mp hb with h1 | h2
      · exact Or.inl h1
      · obtain ⟨hbn, a, haS, han, hab⟩ := stepSet_mem.mp h2
        exact Or.inr ⟨a, haS, Relation.TransGen.single ⟨hab, han, hbn⟩⟩
    · rcases List.mem_append.mp ha with h1 | h2
      · exact Or.inr ⟨a, h1, htg⟩
      · obtain ⟨han, c, hcS, hcn, hca⟩ := stepSet_mem.mp h2
        exact Or.inr ⟨c, hcS, Relation.TransGen.head ⟨hca, hcn, han⟩ htg⟩

lemma hasCycle_transGen {g : DiGraph} (h : hasCycle g = true) :
    ∃ v, Relation.TransGen (cycEdge g) v v := by
  unfold hasCycle at h
  rw [List.any_eq_true] at h
  obtain ⟨v, hv, hr⟩ := h
  rw [decide_eq_true_iff] at hr
  rcases reachIter_sound g _ _ _ hr with hin | ⟨a, ha, htg⟩
  · obtain ⟨hvn, a, haS, han, hav⟩ := stepSet_mem.mp hin
    have : a = v := by simpa using haS
    subst this
    exact ⟨a, Relation.TransGen.single ⟨hav, han, hvn⟩⟩
  · obtain ⟨han, c, hcS, hcn, hca⟩ := stepSet_mem.mp ha
    have : c = v := by simpa using hcS
    subst this
    exact ⟨c, Relation.TransGen.head ⟨hca, hcn, han⟩ htg⟩

lemma cyc_lt_of_topo {g : DiGraph} {sorted : List Nat}
    (hperm : sorted.Perm g.nodes)
    (hpw : List.Pairwise (fun a b => (b, a) ∉ g.edges) sorted)
    (hself : ∀ v ∈ sorted, (v, v) ∉ g.edges) :
    ∀ a b, Relation.TransGen (cycEdge g) a b →
      List.indexOf a sorted < List.indexOf b sorted := by
  have hstep : ∀ a b, cycEdge g a b → List.indexOf a sorted < List.indexOf b sorted := by
    rintro a b ⟨hab, han, hbn⟩
    have haS : a ∈ sorted := hperm.mem_iff.mpr han
    have hbS : b ∈ sorted := hperm.mem_iff.mpr hbn
    have hia := List.indexOf_lt_length.mpr haS
    have hib := List.indexOf_lt_length.mpr hbS
    rcases Nat.lt_trichotomy (List.indexOf a sorted) (List.indexOf b sorted) with hlt | heq | hgt
    · exact hlt
    · exfalso
      have hfe : (⟨List.indexOf a sorted, hia⟩ : Fin sorted.length) =
          ⟨List.indexOf b sorted, hib⟩ := Fin.ext heq
      have : a = b := by
        rw [← List.indexOf_get hia, ← List.indexOf_get hib, hfe]
      subst this
      exact hself a haS hab
    · exfalso
      have := List.pairwise_iff_get.mp hpw ⟨_, hib⟩ ⟨_, hia⟩ hgt
      rw [List.indexOf_get hia, List.indexOf_get hib] at this
      exact this hab
  intro a b h
  induction h with
  | single h1 => exact hstep _ _ h1
  | tail _ h2 ih => exact lt_trans ih (hstep _ _ h2)

lemma topo_ok_no_cycle {g : DiGraph} {sorted : List Nat}
    (h : topologicalSort g = .ok sorted) : hasCycle g = false := by
  by_contra hc
  rw [Bool.not_eq_false] at hc
  obtain ⟨v, htg⟩ := hasCycle_transGen hc
  obtain ⟨hperm, hpw, hself⟩ := topologicalSort_ok_spec h
  exact absurd (cyc_lt_of_topo hperm hpw hself v v htg) (lt_irrefl _)

lemma getRequiredSteps_ok_inv {V} {W : World V} {g : DiGraph} {K outs : List Nat}
    {fuel : Nat} {w steps : List Nat}
    (h : getRequiredSteps W g K outs fuel = (w, .ok steps)) :
    ∃ sorted, topologicalSort g = .ok sorted ∧
      steps = sorted.filter (fun s => decide (s ∈ (resolveAll W K outs fuel).1)) := by
  unfold getRequiredSteps at h
  split at h
  · simp at h
  · rename_i sorted ht
    dsimp only at h
    split at h
    · refine ⟨sorted, ht, ?_⟩
      have := congrArg Prod.snd h
      simpa using this.symm
    · simp at h

/-! ### Stability of the graph-collection walk, and small helpers -/

lemma foldl_congr {α β : Type} {f g : β → α → β} {l : List α}
    (h : ∀ b, ∀ a ∈ l, f b a = g b a) : ∀ init, l.foldl f init = l.foldl g init := by
  induction l with
  | nil => intro init; rfl
  | cons a t ih =>
    intro init
    rw [List.foldl_cons, List.foldl_cons, h init a (by simp)]
    exact ih (fun b x hx => h b x (by simp [hx])) _

lemma collectFrom_stable {V} {W : World V} {rank : Nat → Nat} (hRank : RankOk W rank) :
    ∀ f1 f2 out g0, rank (W.stepOf out) < f1 → rank (W.stepOf out) < f2 →
      collectFrom W f1 out g0 = collectFrom W f2 out g0 := by
  intro f1
  induction f1 with
  | zero => intro f2 out g0 h1 h2; exact absurd h1 (Nat.not_lt_zero _)
  | succ a iha =>
    intro f2 out g0 h1 h2
    cases f2 with
    | zero => exact absurd h2 (Nat.not_lt_zero _)
    | succ b =>
      rw [collectFrom, collectFrom]
      refine foldl_congr ?_ _
      intro g2 inp hinp
      exact iha b inp g2
        (lt_of_lt_of_le (hRank _ inp hinp) (Nat.lt_succ_iff.mp h1))
        (lt_of_lt_of_le (hRank _ inp hinp) (Nat.lt_succ_iff.mp h2))

lemma normalizeDict_slot {V} (W : World V) (g : DiGraph) :
    ∀ l : List (Nat × Option V),
      normalizeDict W g (l.map (fun p => (Sum.inl p.1, p.2))) = .ok l := by
  intro l
  induction l with
  | nil => rfl
  | cons p rest ih => simp [normalizeDict, ih]

lemma isSingleNone_iff {V} (l : List (Option V)) : isSingleNone l = true ↔ l = [none] := by
  cases l with
  | nil => simp [isSingleNone]
  | cons a t => cases a <;> cases t <;> simp [isSingleNone]

lemma exW_rankok : RankOk exW (fun n => n) := by
  intro s inp h
  rcases s with _ | _ | _ | _ | n
  · simp [exW, exSteps] at h
  · have : inp = 0 := by simpa [exW, exSteps] using h
    simp [exW, this]
  · have : inp = 0 := by simpa [exW, exSteps] using h
    simp [exW, this]
  · have : inp = 1 ∨ inp = 2 := by simpa [exW, exSteps] using h
    rcases this with rfl | rfl <;> simp [exW]
  · simp [exW, exSteps] at h

lemma chainW_rankok : RankOk chainW (fun n => n) := by
  intro s inp h
  rcases s with _ | _ | n
  · simp [chainW, chainSteps] at h
  · have : inp = 0 := by simpa [chainW, chainSteps] using h
    simp [chainW, this]
  · simp [chainW, chainSteps] at h

/-! ### The backtracking invariants of required-step resolution -/

lemma mem_lunion {x : Nat} {a b : List Nat} : x ∈ lunion a b ↔ x ∈ a ∨ x ∈ b := by
  simp only [lunion, List.mem_append, List.mem_filter, decide_eq_true_iff]
  by_cases hx : x ∈ a <;> simp [hx]

lemma stepOK_mono {V} {W : World V} {K A A2 F F2 : List Nat} {s : Nat}
    (hA : ∀ x ∈ A, x ∈ A2) (hF : ∀ x ∈ F, x ∈ F2) (h : StepOK W K A F s) :
    StepOK W K A2 F2 s := by
  intro inp hi
  obtain ⟨hmem, hfound⟩ := h inp hi
  exact ⟨hmem.imp id (hA _), fun hk => hF _ (hfound hk)⟩

lemma btFold_snd {V} (W : World V) (K allReq : List Nat) (fuel : Nat) (l : List Nat) :
    ∀ acc : List Nat × List Nat,
      (l.foldl (fun acc inp =>
        let r := backtrackSlot W K allReq fuel inp
        (lunion acc.1 r.1, acc.2 ++ r.2)) acc).2 =
      acc.2 ++ l.flatMap (fun inp => (backtrackSlot W K allReq fuel inp).2) := by
  induction l with
  | nil => intro acc; simp
  | cons a t ih =>
    intro acc
    rw [List.foldl_cons, ih]
    simp

lemma btFold_fst_mem {V} (W : World V) (K allReq : List Nat) (fuel : Nat) (l : List Nat) :
    ∀ (acc : List Nat × List Nat) (x : Nat),
      x ∈ (l.foldl (fun acc inp =>
        let r := backtrackSlot W K allReq fuel inp
        (lunion acc.1 r.1, acc.2 ++ r.2)) acc).1 ↔
      x ∈ acc.1 ∨ ∃ inp ∈ l, x ∈ (backtrackSlot W K allReq fuel inp).1 := by
  induction l with
  | nil => intro acc x; simp
  | cons a t ih =>
    intro acc x
    rw [List.foldl_cons, ih]
    simp only [mem_lunion, List.mem_cons]
    constructor
    · rintro ((h | h) | ⟨inp, hinp, h⟩)
      · exact Or.inl h
      · exact Or.inr ⟨a, Or.inl rfl, h⟩
      · exact Or.inr ⟨inp, Or.inr hinp, h⟩
    · rintro (h | ⟨inp, hinp | hinp, h⟩)
      · exact Or.inl (Or.inl h)
      · subst hinp; exact Or.inl (Or.inr h)
      · exact Or.inr ⟨inp, hinp, h⟩

lemma backtrackSlot_spec {V} {W : World V} {rank : Nat → Nat} (hRank : RankOk W rank)
    (K : List Nat) :
    ∀ fuel slot allReq, rank (W.stepOf slot) < fuel →
      (∀ s ∈ (backtrackSlot W K allReq fuel slot).1,
        StepOK W K (allReq ++ (backtrackSlot W K allReq fuel slot).1)
          (backtrackSlot W K allReq fuel slot).2 s) ∧
      (slot ∈ K ∨ W.stepOf slot ∈ allReq ∨
        W.stepOf slot ∈ (backtrackSlot W K allReq fuel slot).1) ∧
      (slot ∈ K → slot ∈ (backtrackSlot W K allReq fuel slot).2) ∧
      (∀ g : DiGraph, GraphClosed W g → (slot ∉ K → W.stepOf slot ∈ g.nodes) →
        ∀ s ∈ (backtrackSlot W K allReq fuel slot).1, s ∈ g.nodes) := by
  intro fuel
  induction fuel with
  | zero => intro slot allReq h; exact absurd h (Nat.not_lt_zero _)
  | succ n ih =>
    intro slot allReq hlt
    by_cases hk : slot ∈ K
    · rw [show backtrackSlot W K allReq (n+1) slot = ([], [slot]) from by
        simp [backtrackSlot, hk]]
      exact ⟨by simp, Or.inl hk, fun _ => by simp, fun g _ _ s hs => absurd hs (by simp)⟩
    · by_cases hp : W.stepOf slot ∈ allReq
      · rw [show backtrackSlot W K allReq (n+1) slot = ([], []) from by
          simp [backtrackSlot, hk, hp]]
        exact ⟨by simp, Or.inr (Or.inl hp), fun hK => absurd hK hk,
          fun g _ _ s hs => absurd hs (by simp)⟩
      · have heq : backtrackSlot W K allReq (n+1) slot =
            (W.steps (W.stepOf slot)).inputs.foldl
              (fun acc inp =>
                let r := backtrackSlot W K allReq n inp
                (lunion acc.1 r.1, acc.2 ++ r.2))
              ([W.stepOf slot], []) := by
          simp [backtrackSlot, hk, hp]
        have hsub : ∀ inp ∈ (W.steps (W.stepOf slot)).inputs, rank (W.stepOf inp) < n :=
          fun inp hi => lt_of_lt_of_le (hRank _ inp hi) (Nat.lt_succ_iff.mp hlt)
        have hsnd := btFold_snd W K allReq n (W.steps (W.stepOf slot)).inputs
          ([W.stepOf slot], [])
        have hfst := btFold_fst_mem W K allReq n (W.steps (W.stepOf slot)).inputs
          ([W.stepOf slot], [])
        rw [heq]
        refine ⟨?_, ?_, fun hK => absurd hK hk, ?_⟩
        · intro s hs
          rcases (hfst s).mp hs with hsp | ⟨inp, hinp, hsin⟩
          · have hsp : s = W.stepOf slot := by simpa using hsp
            subst hsp
            intro inp hi
            obtain ⟨_, hmem, hfound, _⟩ := ih inp allReq (hsub inp hi)
            refine ⟨?_, ?_⟩
            · rcases hmem with h | h | h
              · exact Or.inl h
              · exact Or.inr (List.mem_append.mpr (Or.inl h))
              · refine Or.inr (List.mem_append.mpr (Or.inr ?_))
                exact (hfst _).mpr (Or.inr ⟨inp, hi, h⟩)
            · intro hKi
              rw [hsnd]
              refine List.mem_append.mpr (Or.inr ?_)
              exact List.mem_flatMap.mpr ⟨inp, hi, hfound hKi⟩
          · obtain ⟨hok, _, _, _⟩ := ih inp allReq (hsub inp hinp)
            refine stepOK_mono ?_ ?_ (hok s hsin)
            · intro x hx
              rcases List.mem_append.mp hx with h | h
              · exact List.mem_append.mpr (Or.inl h)
              · exact List.mem_append.mpr
                  (Or.inr ((hfst _).mpr (Or.inr ⟨inp, hinp, h⟩)))
            · intro x hx
              rw [hsnd]
              exact List.mem_append.mpr (Or.inr (List.mem_flatMap.mpr ⟨inp, hinp, hx⟩))
        · exact Or.inr (Or.inr ((hfst _).mpr (Or.inl (by simp))))
        · intro g hg hpn s hs
          rcases (hfst s).mp hs with hsp | ⟨inp, hinp, hsin⟩
          · have hsp : s = W.stepOf slot := by simpa using hsp
            subst hsp
            exact hpn hk
          · obtain ⟨_, _, _, hnodes⟩ := ih inp allReq (hsub inp hinp)
            refine hnodes g hg (fun _ => ?_) s hsin
            exact (hg (W.stepOf slot) (hpn hk) inp hinp).1

lemma resolveFold_spec {V} {W : World V} {rank : Nat → Nat} (hRank : RankOk W rank)
    (K : List Nat) (fuel : Nat) :
    ∀ (outs : List Nat) (acc : List Nat × List Nat),
      (∀ out ∈ outs, rank (W.stepOf out) < fuel) →
      (∀ s ∈ acc.1, StepOK W K acc.1 acc.2 s) →
      (∀ s ∈ (outs.foldl (fun acc out =>
          let r := backtrackSlot W K acc.1 fuel out
          (lunion acc.1 r.1, acc.2 ++ r.2)) acc).1,
        StepOK W K (outs.foldl (fun acc out =>
          let r := backtrackSlot W K acc.1 fuel out
          (lunion acc.1 r.1, acc.2 ++ r.2)) acc).1
          (outs.foldl (fun acc out =>
          let r := backtrackSlot W K acc.1 fuel out
          (lunion acc.1 r.1, acc.2 ++ r.2)) acc).2 s) ∧
      (∀ x ∈ acc.1, x ∈ (outs.foldl (fun acc out =>
          let r := backtrackSlot W K acc.1 fuel out
          (lunion acc.1 r.1, acc.2 ++ r.2)) acc).1) ∧
      (∀ x ∈ acc.2, x ∈ (outs.foldl (fun acc out =>
          let r := backtrackSlot W K acc.1 fuel out
          (lunion acc.1 r.1, acc.2 ++ r.2)) acc).2) ∧
      (∀ out ∈ outs, out ∈ K ∨ W.stepOf out ∈ (outs.foldl (fun acc out =>
          let r := backtrackSlot W K acc.1 fuel out
          (lunion acc.1 r.1, acc.2 ++ r.2)) acc).1) ∧
      (∀ out ∈ outs, out ∈ K → out ∈ (outs.foldl (fun acc out =>
          let r := backtrackSlot W K acc.1 fuel out
          (lunion acc.1 r.1, acc.2 ++ r.2)) acc).2) ∧
      (∀ g : DiGraph, GraphClosed W g → (∀ s ∈ acc.1, s ∈ g.nodes) →
        (∀ out ∈ outs, out ∉ K → W.stepOf out ∈ g.nodes) →
        ∀ s ∈ (outs.foldl (fun acc out =>
          let r := backtrackSlot W K acc.1 fuel out
          (lunion acc.1 r.1, acc.2 ++ r.2)) acc).1, s ∈ g.nodes) := by
  intro outs
  induction outs with
  | nil =>
    intro acc _ hInv
    exact ⟨hInv, fun x hx => hx, fun x hx => hx, by simp, by simp,
      fun g _ hacc _ => hacc⟩
  | cons out rest ih =>
    intro acc hf hInv
    have hflt : rank (W.stepOf out) < fuel := hf out (by simp)
    obtain ⟨hok, hmem, hfound, hnodes⟩ := backtrackSlot_spec hRank K fuel out acc.1 hflt
    have hInv2 : ∀ s ∈ (lunion acc.1 (backtrackSlot W K acc.1 fuel out).1,
        acc.2 ++ (backtrackSlot W K acc.1 fuel out).2).1,
        StepOK W K (lunion acc.1 (backtrackSlot W K acc.1 fuel out).1)
          (acc.2 ++ (backtrackSlot W K acc.1 fuel out).2) s := by
      intro s hs
      rcases mem_lunion.mp hs with hs | hs
      · exact stepOK_mono (fun x hx => mem_lunion.mpr (Or.inl hx))
          (fun x hx => List.mem_append.mpr (Or.inl hx)) (hInv s hs)
      · refine stepOK_mono ?_ (fun x hx => List.mem_append.mpr (Or.inr hx)) (hok s hs)
        intro x hx
        exact mem_lunion.mpr (List.mem_append.mp hx)
    have hrest : ∀ o ∈ rest, rank (W.stepOf o) < fuel := fun o ho => hf o (by simp [ho])
    obtain ⟨c1, c2, c3, c4, c5, c6⟩ := ih _ hrest hInv2
    rw [List.foldl_cons]
    refine ⟨c1, ?_, ?_, ?_, ?_, ?_⟩
    · intro x hx
      exact c2 x (mem_lunion.mpr (Or.inl hx))
    · intro x hx
      exact c3 x (List.mem_append.mpr (Or.inl hx))
    · intro o ho
      rcases List.mem_cons.mp ho with rfl | ho
      · rcases hmem with h | h | h
        · exact Or.inl h
        · exact Or.inr (c2 _ (mem_lunion.mpr (Or.inl h)))
        · exact Or.inr (c2 _ (mem_lunion.mpr (Or.inr h)))
      · exact c4 o ho
    · intro o ho hK
      rcases List.mem_cons.mp ho with rfl | ho
      · exact c3 _ (List.mem_append.mpr (Or.inr (hfound hK)))
      · exact c5 o ho hK
    · intro g hg hacc houts
      refine c6 g hg ?_ (fun o ho hK => houts o (by simp [ho]) hK)
      intro s hs
      rcases mem_lunion.mp hs with hs | hs
      · exact hacc s hs
      · exact hnodes g hg (fun hK => houts out (by simp) hK) s hs

lemma resolveAll_spec {V} {W : World V} {rank : Nat → Nat} (hRank : RankOk W rank)
    {K : List Nat} {fuel : Nat} {outs : List Nat}
    (hf : ∀ out ∈ outs, rank (W.stepOf out) < fuel) :
    (∀ s ∈ (resolveAll W K outs fuel).1,
      StepOK W K (resolveAll W K outs fuel).1 (resolveAll W K outs fuel).2 s) ∧
    (∀ out ∈ outs, out ∈ K ∨ W.stepOf out ∈ (resolveAll W K outs fuel).1) ∧
    (∀ out ∈ outs, out ∈ K → out ∈ (resolveAll W K outs fuel).2) ∧
    (∀ g : DiGraph, GraphClosed W g →
      (∀ out ∈ outs, out ∉ K → W.stepOf out ∈ g.nodes) →
      ∀ s ∈ (resolveAll W K outs fuel).1, s ∈ g.nodes) := by
  obtain ⟨c1, _, _, c4, c5, c6⟩ :=
    resolveFold_spec hRank K fuel outs ([], []) hf (by simp)
  exact ⟨c1, c4, c5, fun g hg houts => c6 g hg (by simp) houts⟩

/-! ### Claims C1, C3, C4, C9, C10 -/

/-- C1: whenever required-step resolution succeeds, the returned list
is exactly the steps of the required set filtered out of the full
graph's topological order, and that list is topologically valid: for
any two steps of the returned sequence joined by a dependency edge
(the first producing an input of the second), the producer appears
strictly earlier, so every step appears after all steps of the
sequence that produce its inputs. -/
theorem c1_resolution_is_filtered_topological_order {V} (W : World V) (g : DiGraph)
    (K outs : List Nat) (fuel : Nat) (w steps : List Nat)
    (h : getRequiredSteps W g K outs fuel = (w, .ok steps)) :
    ∃ sorted, topologicalSort g = .ok sorted ∧
      steps = sorted.filter (fun s => decide (s ∈ (resolveAll W K outs fuel).1)) ∧
      List.Pairwise (fun a b => (b, a) ∉ g.edges) steps := by
  obtain ⟨sorted, ht, hsteps⟩ := getRequiredSteps_ok_inv h
  obtain ⟨_, hpw, _⟩ := topologicalSort_ok_spec ht
  exact ⟨sorted, ht, hsteps, hsteps ▸ List.Pairwise.sublist (List.filter_sublist sorted) hpw⟩

/-- Witness for C1 on the diamond model with its source slot supplied:
resolution succeeds with the steps B, C, D in topological order. -/
theorem c1_witness :
    getRequiredSteps exW exG [0] [3] 10 = ([], .ok [1, 2, 3]) ∧
      (∃ sorted, topologicalSort exG = .ok sorted ∧
        [1, 2, 3] = sorted.filter (fun s => decide (s ∈ (resolveAll exW [0] [3] 10).1)) ∧
        List.Pairwise (fun a b => (b, a) ∉ exG.edges) [1, 2, 3]) :=
  ⟨by decide, c1_resolution_is_filtered_topological_order exW exG [0] [3] 10 [] [1, 2, 3]
    (by decide)⟩

/-- C3: if the dependency graph contains a cycle, resolution fails with
the CyclicGraph error raised by the topological-order request, before
any backtracking proceeds (no warnings, no step list), and the
recursive walks never loop: in a world whose slot-producer relation is
acyclic (witnessed by a rank function), the graph-collection walk of
model construction computes the same graph for every sufficient
recursion bound, i.e. it terminates. -/
theorem c3_cyclic_graph_detected {V} (W : World V) (g : DiGraph) (K outs : List Nat)
    (fuel : Nat) (rank : Nat → Nat) (hRank : RankOk W rank)
    (hcyc : hasCycle g = true) :
    getRequiredSteps W g K outs fuel = ([], .error .cyclicGraph) ∧
      ∀ f1 f2 out g0, rank (W.stepOf out) < f1 → rank (W.stepOf out) < f2 →
        collectFrom W f1 out g0 = collectFrom W f2 out g0 := by
  constructor
  · cases ht : topologicalSort g with
    | ok sorted => exact absurd (topo_ok_no_cycle ht) (by simp [hcyc])
    | error e => unfold getRequiredSteps; rw [ht]
  · exact collectFrom_stable hRank

/-- Witness for C3 on the concrete two-node cyclic graph. -/
theorem c3_witness :
    hasCycle cycG = true ∧
      (getRequiredSteps exW cycG [] [1] 5 = ([], .error .cyclicGraph) ∧
        ∀ f1 f2 out g0, (fun n => n) (exW.stepOf out) < f1 →
          (fun n => n) (exW.stepOf out) < f2 →
          collectFrom exW f1 out g0 = collectFrom exW f2 out g0) :=
  ⟨by decide, c3_cyclic_graph_detected exW cycG [] [1] 5 (fun n => n) exW_rankok (by decide)⟩

/-- C4: during the backtracking traversal, a slot that is a member of
the available inputs is recorded as satisfied and descent stops there:
the traversal of that slot contributes no required step at all (in
particular not the slot's producing step), only the record that the
slot was found. -/
theorem c4_supplied_input_short_circuits {V} (W : World V) (K : List Nat)
    (allReq : List Nat) (fuel : Nat) (slot : Nat) (h : slot ∈ K) :
    backtrackSlot W K allReq (fuel + 1) slot = ([], [slot]) := by
  simp [backtrackSlot, h]

/-- Witness for C4: slot 0 of the diamond model is supplied, so its
traversal requires nothing even though step A produces it. -/
theorem c4_witness :
    (0 ∈ [0]) ∧ backtrackSlot exW [0] [] (4 + 1) 0 = ([], [0]) :=
  ⟨by decide, c4_supplied_input_short_circuits exW [0] [] 4 0 (by decide)⟩

/-- C9: positional caller data is zipped against the declared slots of
the requested role in declaration order; a single `none` target is
expanded to one `none` per declared output; any other count mismatch
is a fatal arity error. -/
theorem c9_positional_normalization {V} (W : World V) (g : DiGraph)
    (mIn mOut : List Nat) (p : PosGiven V) (kind : DataKind) :
    (kind = .target → listifyPos p = [none] →
      normalizeGivenData W g mIn mOut (.pos p) kind =
        .ok (mOut.zip (List.replicate mOut.length none))) ∧
    ((listifyPos p).length = (if kind = .input then mIn else mOut).length →
      normalizeGivenData W g mIn mOut (.pos p) kind =
        .ok ((if kind = .input then mIn else mOut).zip (listifyPos p))) ∧
    ((listifyPos p).length ≠ (if kind = .input then mIn else mOut).length →
      ¬(kind = .target ∧ listifyPos p = [none]) →
      normalizeGivenData W g mIn mOut (.pos p) kind =
        .error (.arityMismatch (if kind = .input then mIn else mOut).length
          (listifyPos p).length)) := by
  refine ⟨?_, ?_, ?_⟩
  · intro hk hnone
    subst hk
    simp [normalizeGivenData, normalizeList, hnone, isSingleNone]
  · intro hlen
    cases hm : isSingleNone (listifyPos p) with
    | false =>
      cases kind <;>
        simp_all [normalizeGivenData, normalizeList]
    | true =>
      have hnone := (isSingleNone_iff _).mp hm
      cases kind with
      | input =>
        simp_all [normalizeGivenData, normalizeList]
      | target =>
        rw [hnone] at hlen
        simp at hlen
        simp [normalizeGivenData, normalizeList, hnone, isSingleNone, ← hlen]
  · intro hlen hexc
    cases kind with
    | input =>
      simp_all [normalizeGivenData, normalizeList]
    | target =>
      have hnotnone : listifyPos p ≠ [none] := by
        intro hc
        exact hexc ⟨rfl, hc⟩
      have hm : isSingleNone (listifyPos p) = false := by
        rw [← Bool.not_eq_true, isSingleNone_iff]
        exact hnotnone
      simp_all [normalizeGivenData, normalizeList]

/-- Witness for C9: a single `none` target against two declared
outputs expands instead of failing. -/
theorem c9_witness :
    normalizeGivenData exW exG [0] [2, 3] (GivenData.pos (.single none)) .target =
      .ok ([2, 3].zip (List.replicate ([2, 3] : List Nat).length none)) :=
  (c9_positional_normalization exW exG [0] [2, 3] (.single none) .target).1 rfl rfl

/-- C10: the desired outputs a train call hands to required-step
resolution are exactly the key set of the normalized target data
(values, including `none` values, do not matter): a slot-keyed target
mapping resolves toward its own keys only, while an omitted target (a
single `none` placeholder) expands to all declared outputs, so every
declared output's steps are requested. -/
theorem c10_fit_resolves_toward_target_keys {V} (W : World V) (g : DiGraph)
    (mIn mOut : List Nat) (L T : List (Nat × Option V)) (fuel : Nat) :
    fitModel W g mIn mOut (slotDict L) (slotDict T) fuel =
      fitRun W L T (getRequiredSteps W g (L.map Prod.fst) (T.map Prod.fst) fuel) ∧
    fitModel W g mIn mOut (slotDict L) (.pos (.single none)) fuel =
      fitRun W L (mOut.zip (List.replicate mOut.length none))
        (getRequiredSteps W g (L.map Prod.fst) mOut fuel) := by
  constructor
  · simp [fitModel, slotDict, normalizeGivenData, normalizeDict_slot]
  · have hkeys : (mOut.zip (List.replicate mOut.length (none : Option V))).map Prod.fst = mOut :=
      List.map_fst_zip _ _ (by simp)
    simp [fitModel, slotDict, normalizeGivenData, normalizeDict_slot, normalizeList,
      listifyPos, isSingleNone, hkeys]


/-! ### Claim C2: missing inputs -/

lemma missing_equiv {V} {W : World V} {g : DiGraph} {A K F : List Nat}
    (hg : GraphClosed W g) (hedge : EdgesFromInputs W g)
    (hAn : ∀ s ∈ A, s ∈ g.nodes) (hInv : ∀ s ∈ A, StepOK W K A F s)
    {s : Nat} (hs : s ∈ A) :
    (subInDegree g A s = 0 ∧ ∀ inp ∈ (W.steps s).inputs, inp ∉ K) ↔ g.inDegree s = 0 := by
  constructor
  · rintro ⟨hsub, hnotK⟩
    have hnil : (W.steps s).inputs = [] := by
      rw [List.eq_nil_iff_forall_not_mem]
      intro inp hinp
      rcases (hInv s hs inp hinp).1 with hK | hA2
      · exact hnotK inp hinp hK
      · have hedge2 := (hg s (hAn s hs) inp hinp).2
        have hmem : (W.stepOf inp, s) ∈
            (g.edges.filter (fun e => decide (e.2 = s))).filter
              (fun e => decide (e.1 ∈ A)) := by
          rw [List.mem_filter, List.mem_filter]
          exact ⟨⟨hedge2, by simp⟩, by simpa using hA2⟩
        have h1 : 0 < subInDegree g A s := by
          unfold subInDegree
          exact List.length_pos.mpr (List.ne_nil_of_mem hmem)
        omega
    unfold DiGraph.inDegree
    rw [List.length_eq_zero, List.filter_eq_nil_iff]
    intro e he
    simp only [decide_eq_true_iff]
    intro hes
    obtain ⟨inp, hinp, _⟩ := hedge e he
    rw [hes, hnil] at hinp
    exact absurd hinp (List.not_mem_nil _)
  · intro hdeg
    have hnil : (W.steps s).inputs = [] := by
      rw [List.eq_nil_iff_forall_not_mem]
      intro inp hinp
      have hedge2 := (hg s (hAn s hs) inp hinp).2
      have hmem : (W.stepOf inp, s) ∈ g.edges.filter (fun e => decide (e.2 = s)) := by
        rw [List.mem_filter]
        exact ⟨hedge2, by simp⟩
      unfold DiGraph.inDegree at hdeg
      rw [List.length_eq_zero] at hdeg
      rw [hdeg] at hmem
      exact absurd hmem (List.not_mem_nil _)
    constructor
    · have hle := List.length_filter_le (fun e => decide (e.1 ∈ A))
        (g.edges.filter (fun e => decide (e.2 = s)))
      unfold subInDegree
      unfold DiGraph.inDegree at hdeg
      omega
    · rw [hnil]
      intro inp hinp
      exact absurd hinp (List.not_mem_nil _)

/-- C2: if the required set contains a step of subgraph in-degree zero
none of whose input slots is among the available inputs, the train
call fails with a single MissingInput error before any step executes
(the trace is empty), and the error enumerates exactly the output
slots of all such steps. -/
theorem c2_missing_input_fatal {V} (W : World V) (g : DiGraph)
    (mIn mOut : List Nat) (L T : List (Nat × Option V)) (fuel : Nat)
    (rank : Nat → Nat) (hRank : RankOk W rank)
    (hg : GraphClosed W g) (hedge : EdgesFromInputs W g)
    (hne : ∀ s ∈ g.nodes, (W.steps s).outputs ≠ [])
    (hfuel : ∀ p ∈ T, rank (W.stepOf p.1) < fuel)
    (hpn : ∀ p ∈ T, p.1 ∉ L.map Prod.fst → W.stepOf p.1 ∈ g.nodes)
    (hsorted : ∃ sorted, topologicalSort g = .ok sorted)
    (hbad : ∃ s ∈ (resolveAll W (L.map Prod.fst) (T.map Prod.fst) fuel).1,
      subInDegree g (resolveAll W (L.map Prod.fst) (T.map Prod.fst) fuel).1 s = 0 ∧
        ∀ inp ∈ (W.steps s).inputs, inp ∉ L.map Prod.fst) :
    ∃ M : List Nat,
      fitModel W g mIn mOut (slotDict L) (slotDict T) fuel =
        ((L.map Prod.fst).filter
          (fun k => decide (¬ k ∈ (resolveAll W (L.map Prod.fst) (T.map Prod.fst) fuel).2)),
         [], .error (.missingInput M)) ∧
      ∀ slot, slot ∈ M ↔
        ∃ s ∈ (resolveAll W (L.map Prod.fst) (T.map Prod.fst) fuel).1,
          (subInDegree g (resolveAll W (L.map Prod.fst) (T.map Prod.fst) fuel).1 s = 0 ∧
            ∀ inp ∈ (W.steps s).inputs, inp ∉ L.map Prod.fst) ∧
          slot ∈ (W.steps s).outputs := by
  obtain ⟨sorted, hts⟩ := hsorted
  have hfuelO : ∀ out ∈ T.map Prod.fst, rank (W.stepOf out) < fuel := by
    intro out ho
    obtain ⟨p, hp, rfl⟩ := List.mem_map.mp ho
    exact hfuel p hp
  have hpnO : ∀ out ∈ T.map Prod.fst, out ∉ L.map Prod.fst → W.stepOf out ∈ g.nodes := by
    intro out ho hK
    obtain ⟨p, hp, rfl⟩ := List.mem_map.mp ho
    exact hpn p hp hK
  obtain ⟨hInv, _, _, hAnodes⟩ := resolveAll_spec hRank hfuelO
  have hAn : ∀ s ∈ (resolveAll W (L.map Prod.fst) (T.map Prod.fst) fuel).1, s ∈ g.nodes :=
    hAnodes g hg hpnO
  have hiff : ∀ s ∈ (resolveAll W (L.map Prod.fst) (T.map Prod.fst) fuel).1,
      ((subInDegree g (resolveAll W (L.map Prod.fst) (T.map Prod.fst) fuel).1 s = 0 ∧
        ∀ inp ∈ (W.steps s).inputs, inp ∉ L.map Prod.fst) ↔ g.inDegree s = 0) :=
    fun s hs => missing_equiv hg hedge hAn hInv hs
  refine ⟨((resolveAll W (L.map Prod.fst) (T.map Prod.fst) fuel).1.filter
      (fun s => decide (g.inDegree s = 0))).flatMap (fun s => (W.steps s).outputs), ?_, ?_⟩
  · have hMne : ((resolveAll W (L.map Prod.fst) (T.map Prod.fst) fuel).1.filter
        (fun s => decide (g.inDegree s = 0))).flatMap (fun s => (W.steps s).outputs) ≠ [] := by
      obtain ⟨s0, hs0, hcb⟩ := hbad
      have hd : g.inDegree s0 = 0 := (hiff s0 hs0).mp hcb
      obtain ⟨slot, hslot⟩ := List.exists_mem_of_ne_nil _ (hne s0 (hAn s0 hs0))
      refine List.ne_nil_of_mem (a := slot) ?_
      rw [List.mem_flatMap]
      exact ⟨s0, by rw [List.mem_filter]; exact ⟨hs0, by simp [hd]⟩, hslot⟩
    have hreq : getRequiredSteps W g (L.map Prod.fst) (T.map Prod.fst) fuel =
        ((L.map Prod.fst).filter
          (fun k => decide (¬ k ∈ (resolveAll W (L.map Prod.fst) (T.map Prod.fst) fuel).2)),
         .error (.missingInput
           (((resolveAll W (L.map Prod.fst) (T.map Prod.fst) fuel).1.filter
             (fun s => decide (g.inDegree s = 0))).flatMap (fun s => (W.steps s).outputs)))) := by
      unfold getRequiredSteps
      rw [hts]
      dsimp only
      rw [if_neg hMne]
    simp only [fitModel, slotDict, normalizeGivenData, normalizeDict_slot]
    rw [hreq]
    simp [fitRun]
  · intro slot
    rw [List.mem_flatMap]
    constructor
    · rintro ⟨s, hsf, hslot⟩
      rw [List.mem_filter] at hsf
      obtain ⟨hsA, hdeg⟩ := hsf
      rw [decide_eq_true_iff] at hdeg
      exact ⟨s, hsA, (hiff s hsA).mpr hdeg, hslot⟩
    · rintro ⟨s, hsA, hcb, hslot⟩
      refine ⟨s, ?_, hslot⟩
      rw [List.mem_filter]
      exact ⟨hsA, by simp [(hiff s hsA).mp hcb]⟩


/-- Witness for C2 on the chain model with no inputs supplied: step A
is required with in-degree zero (it has no inputs at all), and the
train call fails with MissingInput enumerating its output slot, with
an empty invocation trace. -/
theorem c2_witness :
    (∃ s ∈ (resolveAll chainW (([] : List (Nat × Option Nat)).map Prod.fst)
        (([(1, some 9)] : List (Nat × Option Nat)).map Prod.fst) 5).1,
      subInDegree chainG (resolveAll chainW (([] : List (Nat × Option Nat)).map Prod.fst)
        (([(1, some 9)] : List (Nat × Option Nat)).map Prod.fst) 5).1 s = 0 ∧
        ∀ inp ∈ (chainW.steps s).inputs,
          inp ∉ (([] : List (Nat × Option Nat)).map Prod.fst)) ∧
    (∃ M : List Nat,
      fitModel chainW chainG [0] [1] (slotDict []) (slotDict [(1, some 9)]) 5 =
        ((([] : List (Nat × Option Nat)).map Prod.fst).filter
          (fun k => decide (¬ k ∈ (resolveAll chainW (([] : List (Nat × Option Nat)).map Prod.fst)
            (([(1, some 9)] : List (Nat × Option Nat)).map Prod.fst) 5).2)),
         [], .error (.missingInput M)) ∧
      ∀ slot, slot ∈ M ↔
        ∃ s ∈ (resolveAll chainW (([] : List (Nat × Option Nat)).map Prod.fst)
            (([(1, some 9)] : List (Nat × Option Nat)).map Prod.fst) 5).1,
          (subInDegree chainG (resolveAll chainW (([] : List (Nat × Option Nat)).map Prod.fst)
              (([(1, some 9)] : List (Nat × Option Nat)).map Prod.fst) 5).1 s = 0 ∧
            ∀ inp ∈ (chainW.steps s).inputs,
              inp ∉ (([] : List (Nat × Option Nat)).map Prod.fst)) ∧
          slot ∈ (chainW.steps s).outputs) :=
  ⟨by decide, c2_missing_input_fatal chainW chainG [0] [1] [] [(1, some 9)] 5 (fun n => n)
    chainW_rankok (by unfold GraphClosed; decide) (by unfold EdgesFromInputs; decide)
    (by decide) (by decide) (by decide) ⟨[0, 1], by decide⟩ (by decide)⟩


/-! ### Execution-cache lemmas and claim C5 -/

lemma gatherVals_congr {V} {c1 c0 : Cache V} :
    ∀ keys, (∀ k ∈ keys, c1 k = c0 k) → gatherVals c1 keys = gatherVals c0 keys := by
  intro keys
  induction keys with
  | nil => intro _; rfl
  | cons k ks ih =>
    intro h
    rw [gatherVals, gatherVals, h k (by simp), ih (fun x hx => h x (by simp [hx]))]

lemma gatherVals_ok {V} {cache : Cache V} :
    ∀ keys, (∀ k ∈ keys, (cache k).isSome = true) →
      ∃ vals, gatherVals cache keys = .ok vals := by
  intro keys
  induction keys with
  | nil => intro _; exact ⟨[], rfl⟩
  | cons k ks ih =>
    intro h
    obtain ⟨v, hv⟩ := Option.isSome_iff_exists.mp (h k (by simp))
    obtain ⟨vs, hvs⟩ := ih (fun x hx => h x (by simp [hx]))
    exact ⟨v :: vs, by rw [gatherVals, hv, hvs]⟩

lemma updateCache_pres {V} :
    ∀ (pairs : List (Nat × Option V)) (cache : Cache V) (k : Nat),
      (cache k).isSome = true → (updateCache cache pairs k).isSome = true := by
  intro pairs
  induction pairs with
  | nil => intro cache k h; exact h
  | cons p ps ih =>
    intro cache k h
    rw [updateCache, List.foldl_cons]
    refine ih _ k ?_
    by_cases he : k = p.1 <;> simp [he, h]

lemma updateCache_mem {V} :
    ∀ (pairs : List (Nat × Option V)) (cache : Cache V) (k : Nat) (v : Option V),
      (k, v) ∈ pairs → (updateCache cache pairs k).isSome = true := by
  intro pairs
  induction pairs with
  | nil => intro cache k v h; exact absurd h (List.not_mem_nil _)
  | cons p ps ih =>
    intro cache k v h
    rcases List.mem_cons.mp h with rfl | h2
    · rw [updateCache, List.foldl_cons]
      refine updateCache_pres ps _ k ?_
      simp
    · rw [updateCache, List.foldl_cons]
      exact ih _ k v h2

lemma mem_zip_left {α β : Type} :
    ∀ {l1 : List α} {l2 : List β} {x : α}, x ∈ l1 → l1.length = l2.length →
      ∃ y, (x, y) ∈ l1.zip l2 := by
  intro l1
  induction l1 with
  | nil => intro l2 x h; exact absurd h (List.not_mem_nil _)
  | cons a t ih =>
    intro l2 x hx hlen
    cases l2 with
    | nil => simp at hlen
    | cons b t2 =>
      rcases List.mem_cons.mp hx with rfl | hx2
      · exact ⟨b, by simp⟩
      · obtain ⟨y, hy⟩ := ih hx2 (by simpa using hlen)
        exact ⟨y, by simp [hy]⟩

lemma cacheOfList_isSome {V} (L : List (Nat × Option V)) (k : Nat)
    (h : k ∈ L.map Prod.fst) : (cacheOfList L k).isSome = true := by
  obtain ⟨p, hp, rfl⟩ := List.mem_map.mp h
  exact updateCache_mem L _ p.1 p.2 (by simpa using hp)

lemma computeStep_ok {V} {W : World V} {s : Nat}
    (hcaps : (W.steps s).hasPredict = true ∨ (W.steps s).hasTransform = true)
    (harity : ∀ xs, (W.predictFn s xs).length = (W.steps s).outputs.length ∧
      (W.transformFn s xs).length = (W.steps s).outputs.length) (xs : List (Option V)) :
    ∃ outVals, computeStep W s xs = .ok outVals ∧
      outVals.length = (W.steps s).outputs.length := by
  unfold computeStep
  by_cases hp : (W.steps s).hasPredict = true
  · exact ⟨_, by simp [hp], (harity xs).1⟩
  · have ht : (W.steps s).hasTransform = true := by
      rcases hcaps with h | h
      · exact absurd h hp
      · exact h
    exact ⟨_, by simp [hp, ht], (harity xs).2⟩

lemma execLoop_ok {V} {W : World V} (tOpt : Option (List (Nat × Option V))) :
    ∀ (steps : List Nat) (cache : Cache V) (tr : List (TraceEntry V)),
      (∀ l1 s l2, steps = l1 ++ s :: l2 → ∀ inp ∈ (W.steps s).inputs,
        (cache inp).isSome = true ∨ ∃ q ∈ l1, inp ∈ (W.steps q).outputs) →
      (∀ s ∈ steps, (W.steps s).hasPredict = true ∨ (W.steps s).hasTransform = true) →
      (∀ s ∈ steps, ∀ xs, (W.predictFn s xs).length = (W.steps s).outputs.length ∧
        (W.transformFn s xs).length = (W.steps s).outputs.length) →
      ∃ tr2 c2, execLoop W tOpt steps cache tr = (tr2, .ok c2) ∧
        (∀ k, (cache k).isSome = true → (c2 k).isSome = true) ∧
        (∀ s ∈ steps, ∀ o ∈ (W.steps s).outputs, (c2 o).isSome = true) := by
  intro steps
  induction steps with
  | nil =>
    intro cache tr _ _ _
    exact ⟨tr, cache, rfl, fun k h => h, by simp⟩
  | cons s rest ih =>
    intro cache tr hsplit hcaps harity
    have hin : ∀ inp ∈ (W.steps s).inputs, (cache inp).isSome = true := by
      intro inp hi
      rcases hsplit [] s rest rfl inp hi with h | ⟨q, hq, _⟩
      · exact h
      · exact absurd hq (List.not_mem_nil _)
    obtain ⟨xs, hxs⟩ := gatherVals_ok _ hin
    obtain ⟨outVals, hcomp, hlen⟩ :=
      computeStep_ok (hcaps s (by simp)) (harity s (by simp)) xs
    have hnew : ∀ o ∈ (W.steps s).outputs,
        (updateCache cache ((W.steps s).outputs.zip outVals) o).isSome = true := by
      intro o ho
      obtain ⟨y, hy⟩ := mem_zip_left ho hlen.symm
      exact updateCache_mem _ _ o y hy
    have hsplit2 : ∀ l1 s2 l2, rest = l1 ++ s2 :: l2 → ∀ inp ∈ (W.steps s2).inputs,
        ((updateCache cache ((W.steps s).outputs.zip outVals)) inp).isSome = true ∨
          ∃ q ∈ l1, inp ∈ (W.steps q).outputs := by
      intro l1 s2 l2 hr inp hi
      rcases hsplit (s :: l1) s2 l2 (by rw [hr]; rfl) inp hi with h | ⟨q, hq, hqo⟩
      · exact Or.inl (updateCache_pres _ _ _ h)
      · rcases List.mem_cons.mp hq with rfl | hq2
        · exact Or.inl (hnew inp hqo)
        · exact Or.inr ⟨q, hq2, hqo⟩
    obtain ⟨tr2, c2, hexec, hpres, houtc⟩ :=
      ih (updateCache cache ((W.steps s).outputs.zip outVals))
        (fitTraceEntry W tOpt s xs tr ++ [TraceEntry.computeCall s xs])
        hsplit2 (fun x hx => hcaps x (by simp [hx])) (fun x hx => harity x (by simp [hx]))
    refine ⟨tr2, c2, ?_, ?_, ?_⟩
    · rw [execLoop, hxs]
      simp only [hcomp]
      exact hexec
    · intro k h
      exact hpres k (updateCache_pres _ _ _ h)
    · intro x hx o ho
      rcases List.mem_cons.mp hx with rfl | hx2
      · exact hpres o (hnew o ho)
      · exact houtc x hx2 o ho

lemma required_steps_split {V} {W : World V} {g : DiGraph} {K A F sorted : List Nat}
    (hInv : ∀ s ∈ A, StepOK W K A F s)
    (hAn : ∀ s ∈ A, s ∈ g.nodes)
    (hg : GraphClosed W g)
    (hown : ∀ s ∈ g.nodes, ∀ inp ∈ (W.steps s).inputs,
      inp ∈ (W.steps (W.stepOf inp)).outputs)
    (hperm : sorted.Perm g.nodes)
    (hpw : List.Pairwise (fun a b => (b, a) ∉ g.edges) sorted)
    (hself : ∀ v ∈ sorted, (v, v) ∉ g.edges) :
    ∀ l1 s l2, sorted.filter (fun x => decide (x ∈ A)) = l1 ++ s :: l2 →
      ∀ inp ∈ (W.steps s).inputs, inp ∈ K ∨ ∃ q ∈ l1, inp ∈ (W.steps q).outputs := by
  intro l1 s l2 hsplit inp hi
  have hsmem : s ∈ sorted.filter (fun x => decide (x ∈ A)) := by rw [hsplit]; simp
  have hsA : s ∈ A := by simpa using (List.mem_filter.mp hsmem).2
  rcases (hInv s hsA inp hi).1 with hK | hqA
  · exact Or.inl hK
  · right
    have hq_in : W.stepOf inp ∈ sorted.filter (fun x => decide (x ∈ A)) := by
      rw [List.mem_filter]
      exact ⟨hperm.mem_iff.mpr (hAn _ hqA), by simpa using hqA⟩
    have hedge : (W.stepOf inp, s) ∈ g.edges := (hg s (hAn s hsA) inp hi).2
    have hpwf : List.Pairwise (fun a b => (b, a) ∉ g.edges)
        (sorted.filter (fun x => decide (x ∈ A))) :=
      List.Pairwise.sublist (List.filter_sublist sorted) hpw
    rw [hsplit] at hq_in hpwf
    rcases List.mem_append.mp hq_in with hq1 | hq2
    · exact ⟨_, hq1, hown s (hAn s hsA) inp hi⟩
    · exfalso
      rcases List.mem_cons.mp hq2 with heq | hq3
      · have hss : s ∈ sorted := (List.filter_sublist sorted).subset hsmem
        rw [heq] at hedge
        exact hself s hss hedge
      · obtain ⟨_, hps, _⟩ := List.pairwise_append.mp hpwf
        exact (List.pairwise_cons.mp hps).1 _ hq3 hedge

/-- C5: whenever required-step resolution succeeds, both the train and
the predict execution loops run to completion: every cache lookup for
a step's inputs (and for the final requested outputs of predict)
succeeds, because every input slot is either a supplied available
input or an output written by an earlier step of the returned
order. -/
theorem c5_execution_cache_lookups_never_fail {V} (W : World V) (g : DiGraph)
    (mIn mOut : List Nat) (L T : List (Nat × Option V)) (fuel : Nat)
    (rank : Nat → Nat) (hRank : RankOk W rank)
    (hg : GraphClosed W g)
    (hown : ∀ s ∈ g.nodes, ∀ inp ∈ (W.steps s).inputs,
      inp ∈ (W.steps (W.stepOf inp)).outputs)
    (hcaps : ∀ s ∈ g.nodes, (W.steps s).hasPredict = true ∨ (W.steps s).hasTransform = true)
    (harity : ∀ s ∈ g.nodes, ∀ xs, (W.predictFn s xs).length = (W.steps s).outputs.length ∧
      (W.transformFn s xs).length = (W.steps s).outputs.length)
    (hfuel : ∀ p ∈ T, rank (W.stepOf p.1) < fuel)
    (hpn : ∀ p ∈ T, p.1 ∉ L.map Prod.fst → W.stepOf p.1 ∈ g.nodes)
    (hownT : ∀ p ∈ T, p.1 ∉ L.map Prod.fst → p.1 ∈ (W.steps (W.stepOf p.1)).outputs)
    (w steps0 : List Nat)
    (hres : getRequiredSteps W g (L.map Prod.fst) (T.map Prod.fst) fuel = (w, .ok steps0)) :
    (∃ tr, fitModel W g mIn mOut (slotDict L) (slotDict T) fuel = (w, tr, .ok ())) ∧
    (∃ out, predictModel W g mIn mOut (slotDict L) (some (T.map Prod.fst)) fuel =
      (w, .ok out)) := by
  obtain ⟨sorted, hts, hsteps⟩ := getRequiredSteps_ok_inv hres
  obtain ⟨hperm, hpw, hself⟩ := topologicalSort_ok_spec hts
  have hfuelO : ∀ out ∈ T.map Prod.fst, rank (W.stepOf out) < fuel := by
    intro out ho
    obtain ⟨p, hp, rfl⟩ := List.mem_map.mp ho
    exact hfuel p hp
  have hpnO : ∀ out ∈ T.map Prod.fst, out ∉ L.map Prod.fst → W.stepOf out ∈ g.nodes := by
    intro out ho hK
    obtain ⟨p, hp, rfl⟩ := List.mem_map.mp ho
    exact hpn p hp hK
  obtain ⟨hInv, hcov, _, hAnodes⟩ := resolveAll_spec hRank hfuelO
  have hAn : ∀ s ∈ (resolveAll W (L.map Prod.fst) (T.map Prod.fst) fuel).1, s ∈ g.nodes :=
    hAnodes g hg hpnO
  have hstepsA : ∀ s ∈ steps0, s ∈ (resolveAll W (L.map Prod.fst) (T.map Prod.fst) fuel).1 := by
    intro s hs
    rw [hsteps] at hs
    simpa using (List.mem_filter.mp hs).2
  have hsplitc : ∀ l1 s l2, steps0 = l1 ++ s :: l2 → ∀ inp ∈ (W.steps s).inputs,
      (cacheOfList L inp).isSome = true ∨ ∃ q ∈ l1, inp ∈ (W.steps q).outputs := by
    intro l1 s l2 hsp inp hi
    rw [hsteps] at hsp
    rcases required_steps_split hInv hAn hg hown hperm hpw hself l1 s l2 hsp inp hi with
      hK | hq
    · exact Or.inl (cacheOfList_isSome L inp hK)
    · exact Or.inr hq
  have hcapsS : ∀ s ∈ steps0, (W.steps s).hasPredict = true ∨ (W.steps s).hasTransform = true :=
    fun s hs => hcaps s (hAn s (hstepsA s hs))
  have harityS : ∀ s ∈ steps0, ∀ xs,
      (W.predictFn s xs).length = (W.steps s).outputs.length ∧
      (W.transformFn s xs).length = (W.steps s).outputs.length :=
    fun s hs => harity s (hAn s (hstepsA s hs))
  constructor
  · obtain ⟨tr2, c2, hexec, _, _⟩ :=
      execLoop_ok (some T) steps0 (cacheOfList L) [] hsplitc hcapsS harityS
    refine ⟨tr2, ?_⟩
    simp only [fitModel, slotDict, normalizeGivenData, normalizeDict_slot]
    rw [hres]
    simp only [fitRun, hexec]
  · obtain ⟨tr2, c2, hexec, hpres, houtc⟩ :=
      execLoop_ok none steps0 (cacheOfList L) [] hsplitc hcapsS harityS
    have hfinal : ∀ o ∈ T.map Prod.fst, (c2 o).isSome = true := by
      intro o ho
      by_cases hK : o ∈ L.map Prod.fst
      · exact hpres o (cacheOfList_isSome L o hK)
      · have hqA : W.stepOf o ∈ (resolveAll W (L.map Prod.fst) (T.map Prod.fst) fuel).1 := by
          rcases hcov o ho with h | h
          · exact absurd h hK
          · exact h
        have hq_in : W.stepOf o ∈ steps0 := by
          rw [hsteps, List.mem_filter]
          exact ⟨hperm.mem_iff.mpr (hAn _ hqA), by simpa using hqA⟩
        obtain ⟨p, hp, rfl⟩ := List.mem_map.mp ho
        exact houtc _ hq_in _ (hownT p hp hK)
    obtain ⟨outData, hout⟩ := gatherVals_ok _ hfinal
    refine ⟨outData, ?_⟩
    simp only [predictModel, slotDict, normalizeGivenData, normalizeDict_slot]
    rw [hres]
    simp only [hexec, hout]


lemma exW_arity : ∀ s ∈ exG.nodes, ∀ xs : List (Option Nat),
    (exW.predictFn s xs).length = (exW.steps s).outputs.length ∧
    (exW.transformFn s xs).length = (exW.steps s).outputs.length := by
  intro s _ xs
  constructor <;> simp [exW]

/-- Witness for C5 on the diamond model: with the source slot supplied
and the sink slot targeted, both train and predict complete with every
cache lookup succeeding. -/
theorem c5_witness :
    getRequiredSteps exW exG (([((0 : Nat), some (5 : Nat))]).map Prod.fst)
        (([((3 : Nat), some (9 : Nat))]).map Prod.fst) 10 = ([], .ok [1, 2, 3]) ∧
    ((∃ tr, fitModel exW exG [0] [3] (slotDict [(0, some 5)]) (slotDict [(3, some 9)]) 10 =
        ([], tr, .ok ())) ∧
     (∃ out, predictModel exW exG [0] [3] (slotDict [(0, some 5)])
        (some (([((3 : Nat), some (9 : Nat))]).map Prod.fst)) 10 = ([], .ok out))) :=
  ⟨by decide,
    c5_execution_cache_lookups_never_fail exW exG [0] [3] [(0, some 5)] [(3, some 9)] 10
      (fun n => n) exW_rankok (by unfold GraphClosed; decide) (by decide) (by decide)
      exW_arity (by decide) (by decide) (by decide) [] [1, 2, 3] (by decide)⟩


/-! ### Claim C7: unused inputs are inert -/

lemma backtrackSlot_erase {V} (W : World V) (K : List Nat) (u : Nat) :
    ∀ fuel slot allReq, u ∉ (backtrackSlot W (K ++ [u]) allReq fuel slot).2 →
      backtrackSlot W (K ++ [u]) allReq fuel slot = backtrackSlot W K allReq fuel slot := by
  intro fuel
  induction fuel with
  | zero => intro slot allReq _; rfl
  | succ n ih =>
    intro slot allReq hu
    by_cases hk : slot ∈ K ++ [u]
    · have heq : backtrackSlot W (K ++ [u]) allReq (n+1) slot = ([], [slot]) := by
        simp [backtrackSlot, hk]
      have hne : slot ≠ u := by
        intro h
        apply hu
        rw [heq]
        simp [h]
      have hk2 : slot ∈ K := by
        rcases List.mem_append.mp hk with h | h
        · exact h
        · exact absurd (by simpa using h) hne
      rw [heq]
      simp [backtrackSlot, hk2]
    · have hk2 : slot ∉ K := fun h => hk (List.mem_append.mpr (Or.inl h))
      by_cases hp : W.stepOf slot ∈ allReq
      · simp [backtrackSlot, hk, hk2, hp]
      · have heq1 : backtrackSlot W (K ++ [u]) allReq (n+1) slot =
            (W.steps (W.stepOf slot)).inputs.foldl
              (fun acc inp =>
                let r := backtrackSlot W (K ++ [u]) allReq n inp
                (lunion acc.1 r.1, acc.2 ++ r.2)) ([W.stepOf slot], []) := by
          simp [backtrackSlot, hk, hp]
        have heq2 : backtrackSlot W K allReq (n+1) slot =
            (W.steps (W.stepOf slot)).inputs.foldl
              (fun acc inp =>
                let r := backtrackSlot W K allReq n inp
                (lunion acc.1 r.1, acc.2 ++ r.2)) ([W.stepOf slot], []) := by
          simp [backtrackSlot, hk2, hp]
        rw [heq1] at hu ⊢
        rw [heq2]
        rw [btFold_snd W (K ++ [u]) allReq n (W.steps (W.stepOf slot)).inputs
          ([W.stepOf slot], [])] at hu
        have hinps : ∀ inp ∈ (W.steps (W.stepOf slot)).inputs,
            u ∉ (backtrackSlot W (K ++ [u]) allReq n inp).2 := by
          intro inp hinp hmem
          refine hu ?_
          simp only [List.mem_append]
          exact Or.inr (List.mem_flatMap.mpr ⟨inp, hinp, hmem⟩)
        refine foldl_congr ?_ _
        intro b a ha
        rw [ih a allReq (hinps a ha)]

lemma resolveFold_snd_mono {V} (W : World V) (K : List Nat) (fuel : Nat) :
    ∀ (outs : List Nat) (acc : List Nat × List Nat) (x : Nat), x ∈ acc.2 →
      x ∈ (outs.foldl (fun acc out =>
        let r := backtrackSlot W K acc.1 fuel out
        (lunion acc.1 r.1, acc.2 ++ r.2)) acc).2 := by
  intro outs
  induction outs with
  | nil => intro acc x h; exact h
  | cons o rest ih =>
    intro acc x h
    rw [List.foldl_cons]
    exact ih _ x (List.mem_append.mpr (Or.inl h))

lemma resolveFold_erase {V} (W : World V) (K : List Nat) (u : Nat) (fuel : Nat) :
    ∀ (outs : List Nat) (acc : List Nat × List Nat),
      u ∉ (outs.foldl (fun acc out =>
        let r := backtrackSlot W (K ++ [u]) acc.1 fuel out
        (lunion acc.1 r.1, acc.2 ++ r.2)) acc).2 →
      outs.foldl (fun acc out =>
        let r := backtrackSlot W (K ++ [u]) acc.1 fuel out
        (lunion acc.1 r.1, acc.2 ++ r.2)) acc =
      outs.foldl (fun acc out =>
        let r := backtrackSlot W K acc.1 fuel out
        (lunion acc.1 r.1, acc.2 ++ r.2)) acc := by
  intro outs
  induction outs with
  | nil => intro acc _; rfl
  | cons o rest ih =>
    intro acc hu
    have hur : u ∉ (backtrackSlot W (K ++ [u]) acc.1 fuel o).2 := by
      intro hmem
      refine hu ?_
      rw [List.foldl_cons]
      exact resolveFold_snd_mono W (K ++ [u]) fuel rest _ u
        (List.mem_append.mpr (Or.inr hmem))
    rw [List.foldl_cons] at hu
    rw [List.foldl_cons, List.foldl_cons]
    rw [backtrackSlot_erase W K u fuel o acc.1 hur] at hu ⊢
    exact ih _ hu

lemma resolveAll_erase {V} (W : World V) (K : List Nat) (u : Nat) (outs : List Nat)
    (fuel : Nat) (hUnused : u ∉ (resolveAll W (K ++ [u]) outs fuel).2) :
    resolveAll W (K ++ [u]) outs fuel = resolveAll W K outs fuel := by
  unfold resolveAll at hUnused ⊢
  exact resolveFold_erase W K u fuel outs ([], []) hUnused

lemma getRequiredSteps_fst_subset {V} (W : World V) (g : DiGraph) (K outs : List Nat)
    (fuel : Nat) : ∀ x ∈ (getRequiredSteps W g K outs fuel).1, x ∈ K := by
  intro x hx
  unfold getRequiredSteps at hx
  cases hts : topologicalSort g with
  | error e => rw [hts] at hx; exact absurd hx (List.not_mem_nil _)
  | ok sorted =>
    rw [hts] at hx
    dsimp only at hx
    split at hx <;> exact List.mem_of_mem_filter hx

lemma getRequiredSteps_erase {V} (W : World V) (g : DiGraph) (K : List Nat) (u : Nat)
    (outs : List Nat) (fuel : Nat) {sorted : List Nat}
    (hts : topologicalSort g = .ok sorted)
    (hUnused : u ∉ (resolveAll W (K ++ [u]) outs fuel).2) :
    getRequiredSteps W g (K ++ [u]) outs fuel =
      ((getRequiredSteps W g K outs fuel).1 ++ [u],
       (getRequiredSteps W g K outs fuel).2) := by
  have hrem := resolveAll_erase W K u outs fuel hUnused
  have huF : u ∉ (resolveAll W K outs fuel).2 := hrem ▸ hUnused
  unfold getRequiredSteps
  rw [hts]
  dsimp only
  rw [hrem, List.filter_append]
  have hfu : List.filter (fun k => decide (¬ k ∈ (resolveAll W K outs fuel).2)) [u] = [u] := by
    simp [huF]
  rw [hfu]
  split <;> rfl

lemma updateCache_congr {V} (u : Nat) :
    ∀ (pairs : List (Nat × Option V)) (c1 c0 : Cache V),
      (∀ k, k ≠ u → c1 k = c0 k) →
      ∀ k, k ≠ u → updateCache c1 pairs k = updateCache c0 pairs k := by
  intro pairs
  induction pairs with
  | nil => intro c1 c0 h k hk; exact h k hk
  | cons p ps ih =>
    intro c1 c0 h k hk
    rw [updateCache, List.foldl_cons, updateCache, List.foldl_cons]
    refine ih _ _ ?_ k hk
    intro k2 hk2
    by_cases he : k2 = p.1 <;> simp [he, h k2 hk2]

lemma cacheOfList_append_one {V} (L : List (Nat × Option V)) (u : Nat) (v : Option V) :
    ∀ k, k ≠ u → cacheOfList (L ++ [(u, v)]) k = cacheOfList L k := by
  intro k hk
  unfold cacheOfList updateCache
  rw [List.foldl_append]
  simp [hk]

lemma execLoop_congr {V} {W : World V} (tOpt : Option (List (Nat × Option V))) (u : Nat) :
    ∀ (steps : List Nat) (c1 c0 : Cache V) (tr : List (TraceEntry V)),
      (∀ k, k ≠ u → c1 k = c0 k) →
      (∀ s ∈ steps, u ∉ (W.steps s).inputs) →
      (execLoop W tOpt steps c1 tr).1 = (execLoop W tOpt steps c0 tr).1 ∧
      (match (execLoop W tOpt steps c1 tr).2, (execLoop W tOpt steps c0 tr).2 with
       | .error e1, .error e0 => e1 = e0
       | .ok d1, .ok d0 => ∀ k, k ≠ u → d1 k = d0 k
       | _, _ => False) := by
  intro steps
  induction steps with
  | nil =>
    intro c1 c0 tr hc _
    exact ⟨rfl, hc⟩
  | cons s rest ih =>
    intro c1 c0 tr hc hsteps
    have hins : ∀ k ∈ (W.steps s).inputs, c1 k = c0 k := by
      intro k hk
      refine hc k ?_
      intro h
      subst h
      exact hsteps s (by simp) hk
    have hg := gatherVals_congr (W.steps s).inputs hins
    rw [execLoop, execLoop, ← hg]
    cases hgv : gatherVals c1 (W.steps s).inputs with
    | error e => exact ⟨rfl, rfl⟩
    | ok xs =>
      dsimp only
      cases hcs : computeStep W s xs with
      | error e => exact ⟨rfl, rfl⟩
      | ok outVals =>
        dsimp only
        exact ih _ _ _ (updateCache_congr u _ _ _ hc)
          (fun x hx => hsteps x (by simp [hx]))

lemma predictModel_eq {V} (W : World V) (g : DiGraph) (mIn mOut : List Nat)
    (L : List (Nat × Option V)) (outs : List Nat) (fuel : Nat) :
    predictModel W g mIn mOut (slotDict L) (some outs) fuel =
      (match (getRequiredSteps W g (L.map Prod.fst) outs fuel).2 with
       | .error e => ((getRequiredSteps W g (L.map Prod.fst) outs fuel).1, .error e)
       | .ok steps =>
         match (execLoop W none steps (cacheOfList L) []).2 with
         | .error e => ((getRequiredSteps W g (L.map Prod.fst) outs fuel).1, .error e)
         | .ok cache =>
           match gatherVals cache outs with
           | .error e => ((getRequiredSteps W g (L.map Prod.fst) outs fuel).1, .error e)
           | .ok outData => ((getRequiredSteps W g (L.map Prod.fst) outs fuel).1,
               .ok outData)) := by
  simp only [predictModel, slotDict, normalizeGivenData, normalizeDict_slot]

/-- C7: an available input never reached by the backtracking traversal
toward the requested outputs is inert: adding it to a predict call
leaves the call's outcome (outputs or error) unchanged, and it is
reported as unused by exactly one advisory warning while the call
otherwise proceeds. -/
theorem c7_unused_input_inert {V} (W : World V) (g : DiGraph) (mIn mOut : List Nat)
    (L : List (Nat × Option V)) (u : Nat) (v : Option V) (outs : List Nat) (fuel : Nat)
    (rank : Nat → Nat) (hRank : RankOk W rank)
    (hu : u ∉ L.map Prod.fst)
    (hfuel : ∀ o ∈ outs, rank (W.stepOf o) < fuel)
    (hsorted : ∃ sorted, topologicalSort g = .ok sorted)
    (hUnused : u ∉ (resolveAll W (L.map Prod.fst ++ [u]) outs fuel).2) :
    (predictModel W g mIn mOut (slotDict (L ++ [(u, v)])) (some outs) fuel).2 =
      (predictModel W g mIn mOut (slotDict L) (some outs) fuel).2 ∧
    List.count u (predictModel W g mIn mOut (slotDict (L ++ [(u, v)])) (some outs) fuel).1
      = 1 := by
  obtain ⟨sorted, hts⟩ := hsorted
  have hK1 : (L ++ [(u, v)]).map Prod.fst = L.map Prod.fst ++ [u] := by simp
  have hrem := resolveAll_erase W (L.map Prod.fst) u outs fuel hUnused
  obtain ⟨hInv2, _, hfound2, _⟩ := resolveAll_spec (K := L.map Prod.fst ++ [u]) hRank hfuel
  have hnou : ∀ s ∈ (resolveAll W (L.map Prod.fst) outs fuel).1,
      u ∉ (W.steps s).inputs := by
    intro s hs hin
    rw [← hrem] at hs
    exact hUnused ((hInv2 s hs u hin).2 (by simp))
  have houtne : ∀ o ∈ outs, o ≠ u := by
    intro o ho heq
    subst heq
    exact hUnused (hfound2 o ho (by simp))
  have hGR := getRequiredSteps_erase W g (L.map Prod.fst) u outs fuel hts hUnused
  have hcount : List.count u ((getRequiredSteps W g (L.map Prod.fst) outs fuel).1 ++ [u])
      = 1 := by
    rw [List.count_append]
    have h0 : List.count u (getRequiredSteps W g (L.map Prod.fst) outs fuel).1 = 0 :=
      List.count_eq_zero.mpr
        (fun hm => hu (getRequiredSteps_fst_subset W g (L.map Prod.fst) outs fuel u hm))
    rw [h0]
    simp
  rw [predictModel_eq, predictModel_eq, hK1, hGR]
  cases hreq : (getRequiredSteps W g (L.map Prod.fst) outs fuel).2 with
  | error e =>
    dsimp only
    exact ⟨rfl, hcount⟩
  | ok steps0 =>
    dsimp only
    have hstepsA : ∀ s ∈ steps0, s ∈ (resolveAll W (L.map Prod.fst) outs fuel).1 := by
      have hinv := getRequiredSteps_ok_inv
        (show getRequiredSteps W g (L.map Prod.fst) outs fuel =
          ((getRequiredSteps W g (L.map Prod.fst) outs fuel).1, .ok steps0) from by
            rw [← hreq])
      obtain ⟨sorted2, _, hsteps⟩ := hinv
      intro s hs
      rw [hsteps] at hs
      simpa using (List.mem_filter.mp hs).2
    have hnosteps : ∀ s ∈ steps0, u ∉ (W.steps s).inputs :=
      fun s hs => hnou s (hstepsA s hs)
    have hcc : ∀ k, k ≠ u → cacheOfList (L ++ [(u, v)]) k = cacheOfList L k :=
      cacheOfList_append_one L u v
    obtain ⟨_, hmatch⟩ := execLoop_congr none u steps0
      (cacheOfList (L ++ [(u, v)])) (cacheOfList L) [] hcc hnosteps
    cases h1 : (execLoop W none steps0 (cacheOfList (L ++ [(u, v)])) []).2 with
    | error e1 =>
      cases h0 : (execLoop W none steps0 (cacheOfList L) []).2 with
      | error e0 =>
        rw [h1, h0] at hmatch
        subst hmatch
        dsimp only
        exact ⟨rfl, hcount⟩
      | ok d0 =>
        rw [h1, h0] at hmatch
        exact absurd hmatch (by simp)
    | ok d1 =>
      cases h0 : (execLoop W none steps0 (cacheOfList L) []).2 with
      | error e0 =>
        rw [h1, h0] at hmatch
        exact absurd hmatch (by simp)
      | ok d0 =>
        rw [h1, h0] at hmatch
        have hgout : gatherVals d1 outs = gatherVals d0 outs :=
          gatherVals_congr outs (fun o ho => hmatch o (houtne o ho))
        dsimp only
        rw [hgout]
        cases gatherVals d0 outs with
        | error e => exact ⟨rfl, hcount⟩
        | ok outData => exact ⟨rfl, hcount⟩


/-- Witness for C7 on the diamond model: supplying the source slot 0
alongside the mid slots 1 and 2 leaves the predicted output unchanged
and yields exactly one unused-input warning for slot 0. -/
theorem c7_witness :
    ((0 : Nat) ∉ ([((1 : Nat), some (5 : Nat)), (2, some 6)]).map Prod.fst) ∧
    ((0 : Nat) ∉ (resolveAll exW
      (([((1 : Nat), some (5 : Nat)), (2, some 6)]).map Prod.fst ++ [0]) [3] 10).2) ∧
    ((predictModel exW exG [0] [3]
        (slotDict ([((1 : Nat), some (5 : Nat)), (2, some 6)] ++ [(0, some 7)]))
        (some [3]) 10).2 =
      (predictModel exW exG [0] [3]
        (slotDict [((1 : Nat), some (5 : Nat)), (2, some 6)]) (some [3]) 10).2 ∧
     List.count 0 (predictModel exW exG [0] [3]
        (slotDict ([((1 : Nat), some (5 : Nat)), (2, some 6)] ++ [(0, some 7)]))
        (some [3]) 10).1 = 1) :=
  ⟨by decide, by decide,
    c7_unused_input_inert exW exG [0] [3] [(1, some 5), (2, some 6)] 0 (some 7) [3] 10
      (fun n => n) exW_rankok (by decide) (by decide) ⟨[0, 1, 2, 3], by decide⟩ (by decide)⟩


/-! ### Claim C8: training invocations -/

lemma fitTraceEntry_mono {V} {W : World V} {tOpt : Option (List (Nat × Option V))}
    {s : Nat} {xs : List (Option V)} {tr : List (TraceEntry V)} {e : TraceEntry V}
    (he : e ∈ tr) : e ∈ fitTraceEntry W tOpt s xs tr := by
  unfold fitTraceEntry
  cases tOpt with
  | none => exact he
  | some T =>
    by_cases hf : (W.steps s).hasFit = true <;> simp [hf, he]

lemma fitTraceEntry_sound {V} {W : World V} {T : List (Nat × Option V)}
    {s : Nat} {xs : List (Option V)} {tr : List (TraceEntry V)} {e : TraceEntry V}
    (he : e ∈ fitTraceEntry W (some T) s xs tr) :
    e ∈ tr ∨ (e = .fitCall s xs (gatherTargets T (W.steps s).outputs) ∧
      (W.steps s).hasFit = true) := by
  unfold fitTraceEntry at he
  dsimp only at he
  by_cases hf : (W.steps s).hasFit = true
  · rw [if_pos hf] at he
    rcases List.mem_append.mp he with h | h
    · exact Or.inl h
    · exact Or.inr ⟨by simpa using h, hf⟩
  · rw [if_neg hf] at he
    exact Or.inl he

lemma execLoop_trace_mono {V} {W : World V} (tOpt : Option (List (Nat × Option V))) :
    ∀ (steps : List Nat) (cache : Cache V) (tr : List (TraceEntry V)) (e : TraceEntry V),
      e ∈ tr → e ∈ (execLoop W tOpt steps cache tr).1 := by
  intro steps
  induction steps with
  | nil => intro cache tr e he; exact he
  | cons s rest ih =>
    intro cache tr e he
    rw [execLoop]
    cases gatherVals cache (W.steps s).inputs with
    | error e2 => exact he
    | ok xs =>
      dsimp only
      cases computeStep W s xs with
      | error e2 => exact fitTraceEntry_mono he
      | ok outVals =>
        exact ih _ _ e (List.mem_append.mpr (Or.inl (fitTraceEntry_mono he)))

lemma execLoop_fit_sound {V} {W : World V} (T : List (Nat × Option V)) :
    ∀ (steps : List Nat) (cache : Cache V) (tr : List (TraceEntry V))
      (s : Nat) (xs ys : List (Option V)),
      TraceEntry.fitCall s xs ys ∈ (execLoop W (some T) steps cache tr).1 →
      TraceEntry.fitCall s xs ys ∈ tr ∨
        (s ∈ steps ∧ (W.steps s).hasFit = true ∧
          ys = gatherTargets T (W.steps s).outputs) := by
  intro steps
  induction steps with
  | nil => intro cache tr s xs ys h; exact Or.inl h
  | cons s0 rest ih =>
    intro cache tr s xs ys h
    rw [execLoop] at h
    cases hgv : gatherVals cache (W.steps s0).inputs with
    | error e => rw [hgv] at h; exact Or.inl h
    | ok xs0 =>
      rw [hgv] at h
      dsimp only at h
      cases hcs : computeStep W s0 xs0 with
      | error e =>
        rw [hcs] at h
        dsimp only at h
        rcases fitTraceEntry_sound h with h2 | ⟨heq, hf⟩
        · exact Or.inl h2
        · obtain ⟨rfl, rfl, rfl⟩ : s = s0 ∧ xs = xs0 ∧
              ys = gatherTargets T (W.steps s0).outputs := by
            injection heq with h1 h2 h3
            exact ⟨h1, h2, h3⟩
          exact Or.inr ⟨by simp, hf, rfl⟩
      | ok outVals =>
        rw [hcs] at h
        dsimp only at h
        rcases ih _ _ s xs ys h with hmem | ⟨hs, hf, hys⟩
        · rcases List.mem_append.mp hmem with h2 | h2
          · rcases fitTraceEntry_sound h2 with h3 | ⟨heq, hf⟩
            · exact Or.inl h3
            · obtain ⟨rfl, rfl, rfl⟩ : s = s0 ∧ xs = xs0 ∧
                  ys = gatherTargets T (W.steps s0).outputs := by
                injection heq with h1 h2 h3
                exact ⟨h1, h2, h3⟩
              exact Or.inr ⟨by simp, hf, rfl⟩
          · simp at h2
        · exact Or.inr ⟨by simp [hs], hf, hys⟩

lemma execLoop_fit_complete {V} {W : World V} (T : List (Nat × Option V)) :
    ∀ (steps : List Nat) (cache : Cache V) (tr : List (TraceEntry V)) (c : Cache V),
      (execLoop W (some T) steps cache tr).2 = .ok c →
      ∀ s ∈ steps, (W.steps s).hasFit = true →
        ∃ xs, TraceEntry.fitCall s xs (gatherTargets T (W.steps s).outputs) ∈
          (execLoop W (some T) steps cache tr).1 := by
  intro steps
  induction steps with
  | nil => intro cache tr c _ s hs; exact absurd hs (List.not_mem_nil _)
  | cons s0 rest ih =>
    intro cache tr c hok s hs hf
    rw [execLoop] at hok ⊢
    cases hgv : gatherVals cache (W.steps s0).inputs with
    | error e =>
      rw [hgv] at hok
      dsimp only at hok
      exact absurd hok (by simp)
    | ok xs0 =>
      rw [hgv] at hok
      dsimp only at hok ⊢
      cases hcs : computeStep W s0 xs0 with
      | error e =>
        rw [hcs] at hok
        dsimp only at hok
        exact absurd hok (by simp)
      | ok outVals =>
        rw [hcs] at hok
        dsimp only at hok ⊢
        rcases List.mem_cons.mp hs with rfl | hs2
        · refine ⟨xs0, ?_⟩
          refine execLoop_trace_mono (some T) rest _ _ _ ?_
          refine List.mem_append.mpr (Or.inl ?_)
          unfold fitTraceEntry
          simp [hf]
        · exact ih _ _ c hok s hs2 hf

/-- C8: during train, a training invocation is recorded exactly for
the steps of the executed order that have the train capability, and
its target arguments are exactly the values of those of the step's
output slots that are present and not `none` in the target data
(absent and `none` targets are omitted); steps without the train
capability never have a training invocation. -/
theorem c8_training_invocations {V} (W : World V) (g : DiGraph)
    (mIn mOut : List Nat) (L T : List (Nat × Option V)) (fuel : Nat)
    (w : List Nat) (tr : List (TraceEntry V)) (steps0 : List Nat)
    (hres : getRequiredSteps W g (L.map Prod.fst) (T.map Prod.fst) fuel = (w, .ok steps0))
    (hok : fitModel W g mIn mOut (slotDict L) (slotDict T) fuel = (w, tr, .ok ())) :
    (∀ s xs ys, TraceEntry.fitCall s xs ys ∈ tr →
      (W.steps s).hasFit = true ∧ s ∈ steps0 ∧
        ys = gatherTargets T (W.steps s).outputs) ∧
    (∀ s ∈ steps0, (W.steps s).hasFit = true →
      ∃ xs, TraceEntry.fitCall s xs (gatherTargets T (W.steps s).outputs) ∈ tr) ∧
    (∀ s xs ys, (W.steps s).hasFit = false → TraceEntry.fitCall s xs ys ∉ tr) := by
  simp only [fitModel, slotDict, normalizeGivenData, normalizeDict_slot] at hok
  rw [hres] at hok
  unfold fitRun at hok
  dsimp only at hok
  cases her : (execLoop W (some T) steps0 (cacheOfList L) []).2 with
  | error e =>
    rw [her] at hok
    dsimp only at hok
    exact absurd hok (by simp)
  | ok c =>
    rw [her] at hok
    dsimp only at hok
    have htr : (execLoop W (some T) steps0 (cacheOfList L) []).1 = tr := by
      have h2 := congrArg (fun p => p.2.1) hok
      simpa using h2
    have hsound : ∀ s xs ys, TraceEntry.fitCall s xs ys ∈ tr →
        (W.steps s).hasFit = true ∧ s ∈ steps0 ∧
          ys = gatherTargets T (W.steps s).outputs := by
      intro s xs ys hmem
      rw [← htr] at hmem
      rcases execLoop_fit_sound T steps0 _ [] s xs ys hmem with h | ⟨hs, hf, hys⟩
      · exact absurd h (List.not_mem_nil _)
      · exact ⟨hf, hs, hys⟩
    refine ⟨hsound, ?_, ?_⟩
    · intro s hs hf
      obtain ⟨xs, hx⟩ := execLoop_fit_complete T steps0 _ [] c her s hs hf
      exact ⟨xs, htr ▸ hx⟩
    · intro s xs ys hf hmem
      have := (hsound s xs ys hmem).1
      rw [hf] at this
      exact Bool.false_ne_true this

/-- Witness for C8 on the diamond train call: B and C are trained with
no targets, D with the supplied target for its output slot. -/
theorem c8_witness :
    fitModel exW exG [0] [3] (slotDict [(0, some 5)]) (slotDict [(3, some 9)]) 10 =
      ([], [TraceEntry.fitCall 1 [some 5] [], TraceEntry.computeCall 1 [some 5],
            TraceEntry.fitCall 2 [some 5] [], TraceEntry.computeCall 2 [some 5],
            TraceEntry.fitCall 3 [some 201, some 202] [some 9],
            TraceEntry.computeCall 3 [some 201, some 202]], .ok ()) ∧
    ((∀ s xs ys, TraceEntry.fitCall s xs ys ∈
        [TraceEntry.fitCall 1 [some 5] [], TraceEntry.computeCall 1 [some 5],
         TraceEntry.fitCall 2 [some 5] [], TraceEntry.computeCall 2 [some 5],
         TraceEntry.fitCall 3 [some 201, some 202] [some 9],
         TraceEntry.computeCall 3 [some 201, some 202]] →
      (exW.steps s).hasFit = true ∧ s ∈ [1, 2, 3] ∧
        ys = gatherTargets [((3 : Nat), some (9 : Nat))] (exW.steps s).outputs) ∧
     (∀ s ∈ [1, 2, 3], (exW.steps s).hasFit = true →
      ∃ xs, TraceEntry.fitCall s xs
          (gatherTargets [((3 : Nat), some (9 : Nat))] (exW.steps s).outputs) ∈
        [TraceEntry.fitCall 1 [some 5] [], TraceEntry.computeCall 1 [some 5],
         TraceEntry.fitCall 2 [some 5] [], TraceEntry.computeCall 2 [some 5],
         TraceEntry.fitCall 3 [some 201, some 202] [some 9],
         TraceEntry.computeCall 3 [some 201, some 202]]) ∧
     (∀ s xs ys, (exW.steps s).hasFit = false → TraceEntry.fitCall s xs ys ∉
        [TraceEntry.fitCall 1 [some 5] [], TraceEntry.computeCall 1 [some 5],
         TraceEntry.fitCall 2 [some 5] [], TraceEntry.computeCall 2 [some 5],
         TraceEntry.fitCall 3 [some 201, some 202] [some 9],
         TraceEntry.computeCall 3 [some 201, some 202]])) :=
  ⟨by decide,
    c8_training_invocations exW exG [0] [3] [(0, some 5)] [(3, some 9)] 10 []
      [TraceEntry.fitCall 1 [some 5] [], TraceEntry.computeCall 1 [some 5],
       TraceEntry.fitCall 2 [some 5] [], TraceEntry.computeCall 2 [some 5],
       TraceEntry.fitCall 3 [some 201, some 202] [some 9],
       TraceEntry.computeCall 3 [some 201, some 202]] [1, 2, 3]
      (by decide) (by decide)⟩


/-! ### Claim C6: duplicated step names -/

lemma foldl_preserve {α β : Type} {P : β → Prop} {f : β → α → β} :
    ∀ (l : List α), (∀ b, ∀ a ∈ l, P b → P (f b a)) → ∀ init, P init → P (l.foldl f init) := by
  intro l
  induction l with
  | nil => intro _ init h; exact h
  | cons a t ih =>
    intro hf init h
    rw [List.foldl_cons]
    exact ih (fun b x hx => hf b x (by simp [hx])) _ (hf init a (by simp) h)

lemma addNode_nodup {g : DiGraph} {s : Nat} (h : g.nodes.Nodup) :
    (g.addNode s).nodes.Nodup := by
  unfold DiGraph.addNode
  split
  · exact h
  · rename_i hmem
    simp [List.nodup_append, h, hmem]

lemma collectFrom_nodup {V} (W : World V) :
    ∀ fuel out (g : DiGraph), g.nodes.Nodup → (collectFrom W fuel out g).nodes.Nodup := by
  intro fuel
  induction fuel with
  | zero => intro out g h; exact h
  | succ n ih =>
    intro out g h
    rw [collectFrom]
    refine foldl_preserve (P := fun g : DiGraph => g.nodes.Nodup) _ ?_ _ (addNode_nodup h)
    intro b a _ hb
    exact ih a b hb

lemma collectGraph_nodup {V} (W : World V) (outs : List Nat) (fuel : Nat) :
    (collectGraph W outs fuel).nodes.Nodup := by
  unfold collectGraph
  refine foldl_preserve (P := fun g : DiGraph => g.nodes.Nodup) outs ?_ _ (by simp)
  intro b a _ hb
  exact collectFrom_nodup W fuel a b hb

lemma addEdge_nodes (g : DiGraph) (a b : Nat) : (g.addEdge a b).nodes = g.nodes := by
  unfold DiGraph.addEdge
  split <;> rfl

lemma foldEdges_nodes {V} (W : World V) (s : Nat) :
    ∀ (l : List Nat) (g1 : DiGraph),
      (l.foldl (fun g2 inp => g2.addEdge (W.stepOf inp) s) g1).nodes = g1.nodes := by
  intro l
  induction l with
  | nil => intro g1; rfl
  | cons a t ih =>
    intro g1
    rw [List.foldl_cons, ih, addEdge_nodes]

lemma addAllEdges_nodes {V} (W : World V) (g : DiGraph) :
    (addAllEdges W g).nodes = g.nodes := by
  unfold addAllEdges
  have haux : ∀ (l : List Nat) (g1 : DiGraph),
      (l.foldl (fun g1 s =>
        (W.steps s).inputs.foldl (fun g2 inp => g2.addEdge (W.stepOf inp) s) g1) g1).nodes
        = g1.nodes := by
    intro l
    induction l with
    | nil => intro g1; rfl
    | cons a t ih =>
      intro g1
      rw [List.foldl_cons, ih, foldEdges_nodes]
  exact haux g.nodes g

lemma mem_seenOrder_aux : ∀ (names acc : List String) (x : String),
    x ∈ names.foldl (fun acc n => if n ∈ acc then acc else acc ++ [n]) acc ↔
      x ∈ acc ∨ x ∈ names := by
  intro names
  induction names with
  | nil => intro acc x; simp
  | cons n t ih =>
    intro acc x
    rw [List.foldl_cons, ih]
    by_cases hn : n ∈ acc
    · rw [if_pos hn]
      constructor
      · rintro (h | h)
        · exact Or.inl h
        · exact Or.inr (by simp [h])
      · rintro (h | h)
        · exact Or.inl h
        · rcases List.mem_cons.mp h with rfl | h2
          · exact Or.inl hn
          · exact Or.inr h2
    · rw [if_neg hn]
      simp only [List.mem_append, List.mem_cons, List.mem_singleton]
      tauto

lemma mem_seenOrder (names : List String) (x : String) :
    x ∈ seenOrder names ↔ x ∈ names := by
  unfold seenOrder
  rw [mem_seenOrder_aux]
  simp

lemma two_le_length_of_two_mem {α : Type} {l : List α} {a b : α}
    (ha : a ∈ l) (hb : b ∈ l) (hab : a ≠ b) : 2 ≤ l.length := by
  cases l with
  | nil => exact absurd ha (List.not_mem_nil _)
  | cons x t =>
    cases t with
    | nil =>
      simp only [List.mem_singleton] at ha hb
      subst ha
      subst hb
      exact absurd rfl hab
    | cons y t2 => simp [Nat.succ_le_succ, Nat.le_add_left]

lemma name_pair_iff {V} (W : World V) (nodes : List Nat) (hnd : nodes.Nodup) (n : String) :
    1 < (nodes.map (fun s => (W.steps s).name)).count n ↔
      ∃ a ∈ nodes, ∃ b ∈ nodes, a ≠ b ∧ (W.steps a).name = n ∧ (W.steps b).name = n := by
  rw [List.count_eq_countP, List.countP_map, List.countP_eq_length_filter]
  constructor
  · intro h
    cases hl : nodes.filter ((fun x => x == n) ∘ fun s => (W.steps s).name) with
    | nil => rw [hl] at h; simp at h
    | cons a t =>
      cases t with
      | nil => rw [hl] at h; simp at h
      | cons b t2 =>
        have ha : a ∈ nodes.filter ((fun x => x == n) ∘ fun s => (W.steps s).name) := by
          rw [hl]; simp
        have hb : b ∈ nodes.filter ((fun x => x == n) ∘ fun s => (W.steps s).name) := by
          rw [hl]; simp
        have hnodup := List.Nodup.filter ((fun x => x == n) ∘ fun s => (W.steps s).name) hnd
        have hab : a ≠ b := by
          rw [hl] at hnodup
          intro heq
          subst heq
          exact (List.pairwise_cons.mp hnodup).1 a (by simp) rfl
        obtain ⟨haN, haE⟩ := List.mem_filter.mp ha
        obtain ⟨hbN, hbE⟩ := List.mem_filter.mp hb
        exact ⟨a, haN, b, hbN, hab, by simpa using haE, by simpa using hbE⟩
  · rintro ⟨a, ha, b, hb, hab, hna, hnb⟩
    have ha2 : a ∈ nodes.filter ((fun x => x == n) ∘ fun s => (W.steps s).name) :=
      List.mem_filter.mpr ⟨ha, by simp [hna]⟩
    have hb2 : b ∈ nodes.filter ((fun x => x == n) ∘ fun s => (W.steps s).name) :=
      List.mem_filter.mpr ⟨hb, by simp [hnb]⟩
    have := two_le_length_of_two_mem ha2 hb2 hab
    omega

/-- C6: if two distinct steps reachable from the declared outputs
report the same name, model construction fails with DuplicateStepName,
and the reported list contains exactly the names reported by more than
one collected step (every duplicated name, not just the first); the
error is raised by construction itself, so no call-time model
exists. -/
theorem c6_duplicate_names_fail_at_construction {V} (W : World V)
    (mIn mOut : List Nat) (fuel : Nat) (s1 s2 : Nat)
    (h1 : s1 ∈ (collectGraph W mOut fuel).nodes)
    (h2 : s2 ∈ (collectGraph W mOut fuel).nodes)
    (hne : s1 ≠ s2)
    (hname : (W.steps s1).name = (W.steps s2).name) :
    mkModel W mIn mOut fuel =
      .error (.duplicateStepName (duplicatedNames W (addAllEdges W (collectGraph W mOut fuel)))) ∧
    ∀ n, n ∈ duplicatedNames W (addAllEdges W (collectGraph W mOut fuel)) ↔
      ∃ a ∈ (collectGraph W mOut fuel).nodes, ∃ b ∈ (collectGraph W mOut fuel).nodes,
        a ≠ b ∧ (W.steps a).name = n ∧ (W.steps b).name = n := by
  have hnodes := addAllEdges_nodes W (collectGraph W mOut fuel)
  have hnd : (addAllEdges W (collectGraph W mOut fuel)).nodes.Nodup := by
    rw [hnodes]
    exact collectGraph_nodup W mOut fuel
  have hiff : ∀ n, n ∈ duplicatedNames W (addAllEdges W (collectGraph W mOut fuel)) ↔
      ∃ a ∈ (collectGraph W mOut fuel).nodes, ∃ b ∈ (collectGraph W mOut fuel).nodes,
        a ≠ b ∧ (W.steps a).name = n ∧ (W.steps b).name = n := by
    intro n
    unfold duplicatedNames
    rw [List.mem_filter, mem_seenOrder]
    rw [hnodes]
    constructor
    · rintro ⟨_, hcnt⟩
      rw [decide_eq_true_iff] at hcnt
      exact (name_pair_iff W _ (collectGraph_nodup W mOut fuel) n).mp hcnt
    · rintro ⟨a, ha, b, hb, hab, hna, hnb⟩
      refine ⟨List.mem_map.mpr ⟨a, ha, hna⟩, ?_⟩
      rw [decide_eq_true_iff]
      exact (name_pair_iff W _ (collectGraph_nodup W mOut fuel) n).mpr
        ⟨a, ha, b, hb, hab, hna, hnb⟩
  have hmem : (W.steps s1).name ∈
      duplicatedNames W (addAllEdges W (collectGraph W mOut fuel)) :=
    (hiff _).mpr ⟨s1, h1, s2, h2, hne, rfl, hname.symm ▸ rfl⟩
  have hdne : duplicatedNames W (addAllEdges W (collectGraph W mOut fuel)) ≠ [] :=
    List.ne_nil_of_mem hmem
  have hbg : buildGraph W mOut fuel =
      .error (.duplicateStepName (duplicatedNames W (addAllEdges W (collectGraph W mOut fuel)))) := by
    unfold buildGraph
    dsimp only
    rw [if_neg hdne]
  constructor
  · unfold mkModel
    rw [hbg]
  · exact hiff

/-- Witness for C6 on the two-step chain whose steps both report the
name A. -/
theorem c6_witness :
    ((1 : Nat) ∈ (collectGraph dupW [1] 5).nodes) ∧
    ((0 : Nat) ∈ (collectGraph dupW [1] 5).nodes) ∧
    (mkModel dupW [0] [1] 5 =
      .error (.duplicateStepName (duplicatedNames dupW (addAllEdges dupW (collectGraph dupW [1] 5)))) ∧
     ∀ n, n ∈ duplicatedNames dupW (addAllEdges dupW (collectGraph dupW [1] 5)) ↔
      ∃ a ∈ (collectGraph dupW [1] 5).nodes, ∃ b ∈ (collectGraph dupW [1] 5).nodes,
        a ≠ b ∧ (dupW.steps a).name = n ∧ (dupW.steps b).name = n) :=
  ⟨by decide, by decide,
    c6_duplicate_names_fail_at_construction dupW [0] [1] 5 1 0 (by decide) (by decide)
      (by decide) (by decide)⟩

end Baikal
